import Mathlib

/-! The evvy genetic-algorithm optimiser: embedding and verified properties.

Shallow embedding of `src/GeneticAlgorithm.cpp` (class `EvoAlgos::GeneticAlgorithm`)
and of `src/evy/crossover/Crossover.hpp` (class template `evy::Crossover`).

Modelling conventions.

* `double` is modelled by `ℚ` with exact arithmetic: rounding is not modelled and there
  are no infinities or NaN.  The embedding describes the program where its arithmetic
  does not overflow.  The one operation on genes that can overflow for finite operands is
  the width `upper - lower` of a constraint, computed when a gene is initialised (lines
  45 and 46) and when it is resampled (line 143): beyond `max_double` the program stores
  `+inf` or NaN.  The theorems that bound the value of a sampled gene by its constraint
  therefore assume `upper - lower ≤ max_double`.
* The construction `std::uniform_int_distribution<>(0, population[0].size() - 1)` of
  `crossover` and `mutate` requires a first chromosome with at least one gene; without
  one the bounds are `(0, -1)` and the embedded function returns `none`.
* `std::vector<T>` is modelled by `List T`; an element access outside the vector, or an
  iterator range that ends outside it, has undefined behaviour and makes the embedded
  function return `none`.
* Every pseudo-random generator is modelled by the stream of values it hands out
  (`Nat → ℚ` for canonical samples in `[0,1)`, `Nat → Nat` for integer samples) together
  with the number of samples already consumed.  `std::shuffle` is modelled by the
  function it applies to the index vector.
* Mutable members (`_scores`, `_current_population`) are passed explicitly: a method that
  writes a member returns the updated object.
-/

namespace EvoAlgos

/-- Modelled from the spec: the `OptimizationProblem` collaborator, whose declaration is
not part of the sources.  It exposes `num_parameters`, the `constraints` (an ordered
sequence of `(lower, upper)` pairs whose length is `num_parameters`, spec §3 and §6) and
a pure `objective` function. -/
structure OptimizationProblem where
  num_parameters : Nat
  constraints : List (ℚ × ℚ)
  objective_function : List ℚ → ℚ
  constraints_length : constraints.length = num_parameters

/-- The members of `EvoAlgos::GeneticAlgorithm`.  `_pop_number` is kept as a natural
number: the constructor does not return for a negative `pop_number`. -/
structure GeneticAlgorithm where
  _max_iterations : Int
  _pop_number : Nat
  _k_tournament_selection : Int
  _crossover_probability : ℚ
  _mutation_probability : ℚ
  _scores : List ℚ
  _current_population : List (List ℚ)
  deriving DecidableEq

/-- The random outcomes consumed by one iteration of the loop of `run`. -/
structure GenerationDraws where
  /-- the permutation applied by `std::shuffle` in the call made for parent slot `i` -/
  shuffle : Nat → List Nat → List Nat
  /-- samples of `probability_generator` in `crossover` -/
  crossover_probability : Nat → ℚ
  /-- samples of `number_generator` (through `int_dist`) in `crossover` -/
  crossover_point : Nat → Nat
  /-- samples of `probability_generator` in `mutate` -/
  mutation_probability : Nat → ℚ
  /-- samples of `number_generator` (through `int_dist`) in `mutate` -/
  mutation_index : Nat → Nat
  /-- samples of `mutation_generator` in `mutate` -/
  mutation_number : Nat → ℚ

/-- The random outcomes consumed by one call of `run`. -/
structure RunDraws where
  /-- canonical samples behind `dist(number_generator)` in `generate_initial_solutions` -/
  initial : Nat → ℚ
  /-- the outcomes of loop iteration `i` -/
  generation : Nat → GenerationDraws

/-- The value `std::uniform_real_distribution<>(a, b)` returns for the canonical sample
`u` of its generator (`u` in `[0,1)`), computed exactly.  The library computes
`u * (b - a) + a` in `double`; the exact value agrees with it up to rounding as long as
`b - a` does not overflow, and not at all beyond (`b - a` is then `+inf`). -/
def uniform_real_distribution (a b u : ℚ) : ℚ := a + u * (b - a)

/-- The loop of `std::max_element` once the first element has been read: `largest` is
the position of the current maximum, `value` its value, `i` the position of the head of
the remaining range. -/
def max_element_loop : Nat → ℚ → Nat → List ℚ → Nat
  | largest, _, _, [] => largest
  | largest, value, i, x :: xs =>
    if value < x then max_element_loop i x (i + 1) xs
    else max_element_loop largest value (i + 1) xs

/-- The distance `std::max_element(v.begin(), v.end()) - v.begin()`: the position of the
first greatest element, and `0` (the distance of `end()`) for an empty range. -/
def max_element : List ℚ → Nat
  | [] => 0
  | x :: xs => max_element_loop 0 x 1 xs

/-- The call `std::swap_ranges(first.begin(), first.begin() + n, second.begin())`:
exchanges the first `n` elements, one position at a time.  Undefined when one of the
two vectors is shorter than `n`. -/
def swap_ranges : Nat → List ℚ → List ℚ → Option (List ℚ × List ℚ)
  | 0, first, second => some (first, second)
  | n + 1, a :: first, b :: second =>
    match swap_ranges n first second with
    | some (first', second') => some (b :: first', a :: second')
    | none => none
  | _ + 1, _, _ => none

namespace GeneticAlgorithm

/-- The constructor.  `std::vector<double>(pop_number, 0)` throws for a negative
`pop_number`, in which case no object exists. -/
def new (pop_number max_iterations k_tournament_selection : Int)
    (crossover_probability mutation_probability : ℚ) : Option GeneticAlgorithm :=
  if 0 ≤ pop_number then
    some
      { _max_iterations := max_iterations
        _pop_number := pop_number.toNat
        _k_tournament_selection := k_tournament_selection
        _crossover_probability := crossover_probability
        _mutation_probability := mutation_probability
        _scores := List.replicate pop_number.toNat 0
        _current_population := [] }
  else none

/-- The chromosome `initial_solutions[population_index]` once both loops of
`generate_initial_solutions` have run: gene `parameter_index` holds the sample drawn in
iteration `(parameter_index, population_index)`, the
`parameter_index * _pop_number + population_index`-th sample of `number_generator`. -/
def initial_chromosome (pop_number : Nat) (problem : OptimizationProblem)
    (samples : Nat → ℚ) (population_index : Nat) : Option (List ℚ) :=
  (List.range problem.num_parameters).mapM fun parameter_index =>
    match problem.constraints[parameter_index]? with
    | some c =>
      some (uniform_real_distribution c.1 c.2
        (samples (parameter_index * pop_number + population_index)))
    | none => none

/-- `generate_initial_solutions`: a population of `_pop_number` chromosomes of
`num_parameters` genes each. -/
def generate_initial_solutions (ga : GeneticAlgorithm) (problem : OptimizationProblem)
    (samples : Nat → ℚ) : Option (List (List ℚ)) :=
  (List.range ga._pop_number).mapM (initial_chromosome ga._pop_number problem samples)

/-- The loop of `evaluate`: `_scores[i] = problem.objective_function(solution_population[i])`
for the chromosomes from position `i` on. -/
def evaluate_loop (objective_function : List ℚ → ℚ) :
    List (List ℚ) → Nat → List ℚ → Option (List ℚ)
  | [], _, scores => some scores
  | chromosome :: rest, i, scores =>
    if i < scores.length then
      evaluate_loop objective_function rest (i + 1) (scores.set i (objective_function chromosome))
    else none

/-- `evaluate`: writes the score of every chromosome into `_scores`. -/
def evaluate (ga : GeneticAlgorithm) (solution_population : List (List ℚ))
    (problem : OptimizationProblem) : Option GeneticAlgorithm :=
  match evaluate_loop problem.objective_function solution_population 0 ga._scores with
  | some scores => some { ga with _scores := scores }
  | none => none

/-- `_pick_random_chromosome(k)`: the entries of the shuffled identity vector between
`cbegin()` and `cbegin() + k + 1`, its first `k + 1` entries.  Undefined when
`cbegin() + k + 1` lies outside the vector. -/
def _pick_random_chromosome (ga : GeneticAlgorithm) (k : Int)
    (shuffle : List Nat → List Nat) : Option (List Nat) :=
  let all_indices := shuffle (List.range ga._pop_number)
  if 0 ≤ k + 1 ∧ k + 1 ≤ (all_indices.length : Int) then
    some (all_indices.take (k + 1).toNat)
  else none

/-- `_tournament_selection`: the sampled index at the position of the first greatest
selected score. -/
def _tournament_selection (ga : GeneticAlgorithm) (chromosome_indices : List Nat) :
    Option Nat :=
  match chromosome_indices.mapM (fun index => ga._scores[index]?) with
  | some selected_scores => chromosome_indices[max_element selected_scores]?
  | none => none

/-- One iteration of the loop of `select_parents`: the chromosome stored in a parent
slot whose call of `std::shuffle` applies `shuffle`. -/
def select_parent (ga : GeneticAlgorithm) (shuffle : List Nat → List Nat) :
    Option (List ℚ) :=
  match ga._pick_random_chromosome ga._k_tournament_selection shuffle with
  | some run_indices =>
    match ga._tournament_selection run_indices with
    | some parent_index => ga._current_population[parent_index]?
    | none => none
  | none => none

/-- `select_parents`: `_pop_number` parent slots, slot `i` filled by its own tournament. -/
def select_parents (ga : GeneticAlgorithm) (shuffle : Nat → List Nat → List Nat) :
    Option (List (List ℚ)) :=
  (List.range ga._pop_number).mapM fun i => ga.select_parent (shuffle i)

/-- The loop of `crossover` from the pair at positions `2*i`, `2*i+1` on, when `j`
crossover points have been drawn.  Returns the chromosomes together with the numbers of
probability samples and of crossover points drawn when the loop ends. -/
def crossover_loop (crossover_probability : ℚ) (probability : Nat → ℚ) (point : Nat → Nat) :
    List (List ℚ) → Nat → Nat → Option (List (List ℚ) × Nat × Nat)
  | first :: second :: rest, i, j =>
    if probability i < crossover_probability then
      match swap_ranges (point j + 1) first second with
      | some (first', second') =>
        match crossover_loop crossover_probability probability point rest (i + 1) (j + 1) with
        | some (out, draws) => some (first' :: second' :: out, draws)
        | none => none
      | none => none
    else
      match crossover_loop crossover_probability probability point rest (i + 1) j with
      | some (out, draws) => some (first :: second :: out, draws)
      | none => none
  | rest, i, j => some (rest, i, j)

/-- `crossover`.  Undefined for an empty population (`population[0]`) and for a first
chromosome without genes, for which `int_dist(0, population[0].size() - 1)` is
constructed with the bounds `(0, -1)`, before the loop and whether or not a pair fires.
`point` holds the samples of `int_dist`. -/
def crossover (ga : GeneticAlgorithm) (population : List (List ℚ))
    (probability : Nat → ℚ) (point : Nat → Nat) : Option (List (List ℚ)) :=
  match population with
  | [] => none
  | first :: _ =>
    if first.length = 0 then none
    else
      match crossover_loop ga._crossover_probability probability point population 0 0 with
      | some (out, _) => some out
      | none => none

/-- The loop of `mutate` from the chromosome at position `i` on, when `j` chromosomes
have been mutated.  Returns the chromosomes together with the numbers of probability
samples and of mutations drawn when the loop ends.  The new gene
`number * (upper_bound - lower_bound) + lower_bound` of line 143 is computed exactly; it
agrees with the `double` the program stores up to rounding as long as
`upper_bound - lower_bound` does not overflow, and not at all beyond (the program then
stores `+inf` or NaN). -/
def mutate_loop (mutation_probability : ℚ) (constraints : List (ℚ × ℚ))
    (probability : Nat → ℚ) (index : Nat → Nat) (number : Nat → ℚ) :
    List (List ℚ) → Nat → Nat → Option (List (List ℚ) × Nat × Nat)
  | [], i, j => some ([], i, j)
  | chromosome :: rest, i, j =>
    if probability i < mutation_probability then
      match constraints[index j]? with
      | some (lower_bound, upper_bound) =>
        if index j < chromosome.length then
          match mutate_loop mutation_probability constraints probability index number
              rest (i + 1) (j + 1) with
          | some (out, draws) =>
            some (chromosome.set (index j)
              (number j * (upper_bound - lower_bound) + lower_bound) :: out, draws)
          | none => none
        else none
      | none => none
    else
      match mutate_loop mutation_probability constraints probability index number
          rest (i + 1) j with
      | some (out, draws) => some (chromosome :: out, draws)
      | none => none

/-- `mutate`.  Undefined for an empty population (`population[0]`) and for a first
chromosome without genes, for which `int_dist(0, population[0].size() - 1)` is
constructed with the bounds `(0, -1)`, before the loop and whether or not a chromosome is
mutated.  `index` holds the samples of `int_dist`, `number` those of
`real_dist(mutation_generator)`. -/
def mutate (ga : GeneticAlgorithm) (population : List (List ℚ)) (problem : OptimizationProblem)
    (probability : Nat → ℚ) (index : Nat → Nat) (number : Nat → ℚ) :
    Option (List (List ℚ)) :=
  match population with
  | [] => none
  | first :: _ =>
    if first.length = 0 then none
    else
      match mutate_loop ga._mutation_probability problem.constraints probability index number
          population 0 0 with
      | some (out, _) => some out
      | none => none

/-- `_get_best_chromosome`: the current chromosome at the position of the first greatest
entry of `_scores`. -/
def _get_best_chromosome (ga : GeneticAlgorithm) : Option (List ℚ) :=
  ga._current_population[max_element ga._scores]?

/-- The body of the loop of `run`. -/
def generation (ga : GeneticAlgorithm) (problem : OptimizationProblem)
    (draws : GenerationDraws) : Option GeneticAlgorithm :=
  match ga.evaluate ga._current_population problem with
  | none => none
  | some evaluated =>
    match evaluated.select_parents draws.shuffle with
    | none => none
    | some new_parents =>
      match evaluated.crossover new_parents draws.crossover_probability
          draws.crossover_point with
      | none => none
      | some new_population =>
        match evaluated.mutate new_population problem draws.mutation_probability
            draws.mutation_index draws.mutation_number with
        | none => none
        | some mutated => some { evaluated with _current_population := mutated }

/-- The object after the initialisation and the first `g` iterations of the loop of
`run`. -/
def state_after (ga : GeneticAlgorithm) (problem : OptimizationProblem) (draws : RunDraws) :
    Nat → Option GeneticAlgorithm
  | 0 =>
    match ga.generate_initial_solutions problem draws.initial with
    | some initial_solutions => some { ga with _current_population := initial_solutions }
    | none => none
  | g + 1 =>
    match state_after ga problem draws g with
    | some current => current.generation problem (draws.generation g)
    | none => none

/-- `run`: initialise, iterate `_max_iterations` times, report `_get_best_chromosome()`. -/
def run (ga : GeneticAlgorithm) (problem : OptimizationProblem) (draws : RunDraws) :
    Option (List ℚ) :=
  match state_after ga problem draws ga._max_iterations.toNat with
  | some final => final._get_best_chromosome
  | none => none

end GeneticAlgorithm

end EvoAlgos

namespace evy

/-- The state of an `evy::Crossover` object and of the container it works on: the
chromosomes, the number of calls made to `generator`, the number of calls made to
`crossoverProbability`, and the state of `crossoverStrategy`. -/
structure CrossoverState (C S : Type) where
  chromosomes : List C
  generator_calls : Nat
  probability_calls : Nat
  strategy_state : S

/-- `evy::Crossover::operator()`: `generator n` and `crossoverProbability n` are the
values returned by the `n`-th call of the respective member, `crossoverStrategy` maps
its own state and the two chromosomes it is given to their new values.  The three
members do not share state, so the order in which the operands of `<` are evaluated
does not matter.  The chunks of `std::views::chunk(2)` are visited in order; a last
chunk of one element is skipped. -/
def Crossover {C S P : Type} [LT P] [DecidableRel (fun a b : P => a < b)]
    (crossoverProbability : Nat → P) (crossoverStrategy : S → C → C → C × C × S)
    (generator : Nat → P) : List C → Nat → Nat → S → CrossoverState C S
  | first :: second :: rest, g, p, s =>
    if generator g < crossoverProbability p then
      let r := crossoverStrategy s first second
      let tail := Crossover crossoverProbability crossoverStrategy generator rest
        (g + 1) (p + 1) r.2.2
      { tail with chromosomes := r.1 :: r.2.1 :: tail.chromosomes }
    else
      let tail := Crossover crossoverProbability crossoverStrategy generator rest
        (g + 1) (p + 1) s
      { tail with chromosomes := first :: second :: tail.chromosomes }
  | rest, g, p, s =>
    { chromosomes := rest, generator_calls := g, probability_calls := p, strategy_state := s }

end evy

namespace EvoAlgos

/-! ## Vocabulary of the statements -/

/-- Gene `g` of chromosome `i` of a population, when both positions exist. -/
def gene (population : List (List ℚ)) (i g : Nat) : Option ℚ :=
  match population[i]? with
  | some chromosome => chromosome[g]?
  | none => none

/-- The number of samples below `threshold` among the `t` samples `probability i`, ...,
`probability (i + t - 1)`: how often the guarded branch of a loop is entered in `t`
iterations starting at iteration `i`. -/
def fired_count (threshold : ℚ) (probability : Nat → ℚ) : Nat → Nat → Nat
  | _, 0 => 0
  | i, t + 1 =>
    (if probability i < threshold then 1 else 0) + fired_count threshold probability (i + 1) t

/-- The largest finite `double`, `DBL_MAX = 2^1024 - 2^971`.  A difference
`upper - lower` of two finite `double`s that is at most `max_double` is computed without
overflow. -/
def max_double : ℚ := 2 ^ 1024 - 2 ^ 971

/-- A chromosome is feasible when it has one gene per constraint and every gene lies
within the `[lower, upper]` bound of its position. -/
def Feasible (constraints : List (ℚ × ℚ)) (chromosome : List ℚ) : Prop :=
  chromosome.length = constraints.length ∧
    ∀ (g : Nat) (x : ℚ) (c : ℚ × ℚ),
      chromosome[g]? = some x → constraints[g]? = some c → c.1 ≤ x ∧ x ≤ c.2

/-- The outcomes the generators of one loop iteration can produce for a population of
`pop_number` chromosomes of `num_parameters` genes: every shuffle permutes the identity
vector, the real samples lie in `[0,1)`, the integer samples in
`[0, num_parameters - 1]` (there is no such sample when `num_parameters = 0`). -/
structure GenerationDraws.Valid (pop_number num_parameters : Nat) (d : GenerationDraws) :
    Prop where
  shuffle_perm : ∀ i, i < pop_number →
    (d.shuffle i (List.range pop_number)).Perm (List.range pop_number)
  crossover_probability_range :
    ∀ i, 0 ≤ d.crossover_probability i ∧ d.crossover_probability i < 1
  crossover_point_range : ∀ j, d.crossover_point j < num_parameters
  mutation_probability_range :
    ∀ i, 0 ≤ d.mutation_probability i ∧ d.mutation_probability i < 1
  mutation_index_range : ∀ j, d.mutation_index j < num_parameters
  mutation_number_range : ∀ j, 0 ≤ d.mutation_number j ∧ d.mutation_number j < 1

/-- The outcomes the generators of one call of `run` can produce. -/
structure RunDraws.Valid (pop_number num_parameters : Nat) (d : RunDraws) : Prop where
  initial_range : ∀ n, 0 ≤ d.initial n ∧ d.initial n < 1
  generation_valid : ∀ g, (d.generation g).Valid pop_number num_parameters

/-! ## Sample inputs -/

/-- The problem of the end-to-end scenario: one parameter bounded by `[-1, 1]` and the
objective `-x^2`. -/
def scenario_problem : OptimizationProblem :=
  { num_parameters := 1
    constraints := [(-1, 1)]
    objective_function := fun chromosome => -(chromosome.headD 0) ^ 2
    constraints_length := rfl }

/-- The optimiser of the end-to-end scenario as its constructor leaves it:
`pop_number = 4`, `max_iterations = 1`, `k_tournament = 1`, both probabilities `0`. -/
def scenario_ga : GeneticAlgorithm :=
  { _max_iterations := 1
    _pop_number := 4
    _k_tournament_selection := 1
    _crossover_probability := 0
    _mutation_probability := 0
    _scores := [0, 0, 0, 0]
    _current_population := [] }

/-- Random outcomes for the end-to-end scenario.  The initial samples give the genes
`0.5, -0.1, 0.9, 0.05`; the shuffles of the four parent slots start with the indices
`1 0`, `3 1`, `2 3` and `0 2`. -/
def scenario_draws : RunDraws :=
  { initial := fun n => [3 / 4, 9 / 20, 19 / 20, 21 / 40].getD n 0
    generation := fun _ =>
      { shuffle := fun i _ =>
          [[1, 0, 2, 3], [3, 1, 0, 2], [2, 3, 1, 0], [0, 2, 1, 3]].getD i [0, 1, 2, 3]
        crossover_probability := fun _ => 1 / 2
        crossover_point := fun _ => 0
        mutation_probability := fun _ => 1 / 2
        mutation_index := fun _ => 0
        mutation_number := fun _ => 1 / 2 } }

/-- The optimiser of the end-to-end scenario once the initial population has been
generated and evaluated. -/
def scenario_evaluated : GeneticAlgorithm :=
  { scenario_ga with
    _scores := [-(1 / 4), -(1 / 100), -(81 / 100), -(1 / 400)]
    _current_population := [[1 / 2], [-(1 / 10)], [9 / 10], [1 / 20]] }

/-- Random outcomes of one generation of the end-to-end scenario. -/
def scenario_generation : GenerationDraws := scenario_draws.generation 0

/-- An optimiser whose crossover and mutation always fire: the scenario configuration
with both probabilities set to `1`. -/
def always_ga : GeneticAlgorithm :=
  { scenario_evaluated with _crossover_probability := 1, _mutation_probability := 1 }

/-- A configuration with a negative tournament parameter: the scenario configuration
with `k_tournament = -1`, for which `k_tournament + 1 ≤ pop_number` holds. -/
def negative_k_ga : GeneticAlgorithm :=
  { scenario_ga with _k_tournament_selection := -1 }

/-- A stream of probability samples that are all `0.5`. -/
def half_samples : Nat → ℚ := fun _ => 1 / 2

/-- A stream of integer samples that are all `1`. -/
def unit_samples : Nat → Nat := fun _ => 1

/-- A stream of integer samples that are all `0`. -/
def zero_samples : Nat → Nat := fun _ => 0

/-- A pairwise strategy for the generic operator: exchanges the two chromosomes and counts
its calls. -/
def exchange_strategy : Nat → List ℚ → List ℚ → List ℚ × List ℚ × Nat :=
  fun calls first second => (second, first, calls + 1)

/-- A generator whose samples are `0, 1, 2, ...`. -/
def counting_generator : Nat → ℚ := fun n => n

/-- A stream of resample factors that are all `0.75`. -/
def three_quarter_samples : Nat → ℚ := fun _ => 3 / 4

/-- A problem with three parameters, each bounded by `[0, 10]`, whose objective is the
sum of the genes. -/
def sample_problem : OptimizationProblem :=
  { num_parameters := 3
    constraints := [(0, 10), (0, 10), (0, 10)]
    objective_function := fun chromosome => chromosome.sum
    constraints_length := rfl }

/-- The scenario configuration with `mutation_probability = 1.5`, as the constructor
leaves it. -/
def invalid_probability_ga : GeneticAlgorithm :=
  { scenario_ga with _mutation_probability := 3 / 2 }

/-- The scenario configuration with both probabilities set to `0.25`. -/
def quarter_ga : GeneticAlgorithm :=
  { scenario_ga with _crossover_probability := 1 / 4, _mutation_probability := 1 / 4 }

/-- A probability policy that always returns `0`. -/
def zero_policy : Nat → ℚ := fun _ => 0

/-- The genes at position `j` of the chromosomes of a population, in the order of the
chromosomes. -/
def genes_at (population : List (List ℚ)) (j : Nat) : List ℚ :=
  population.filterMap (fun chromosome => chromosome[j]?)

/-- Modelled from the spec: the single-point strategy of the default configuration, whose
code is not part of the sources.  It draws a crossover point `c` and exchanges the genes
at the positions `0..=c` between the two chromosomes of the pair, leaving the positions
from `c + 1` on untouched in each.  `point` holds the samples of its generator, its state
is the number of points drawn so far. -/
def single_point_strategy (point : Nat → Nat) :
    Nat → List ℚ → List ℚ → List ℚ × List ℚ × Nat :=
  fun drawn first second =>
    (second.take (point drawn + 1) ++ first.drop (point drawn + 1),
      first.take (point drawn + 1) ++ second.drop (point drawn + 1),
      drawn + 1)

/-- A probability policy that returns the same probability at every call. -/
def constant_policy (probability : ℚ) : Nat → ℚ := fun _ => probability

/-- A problem without parameters: no constraints, and an objective that is the sum of
the (absent) genes. -/
def empty_problem : OptimizationProblem :=
  { num_parameters := 0
    constraints := []
    objective_function := fun chromosome => chromosome.sum
    constraints_length := rfl }

/-- Two chromosomes without genes: a non-empty population for which
`population[0].size() - 1` is `-1`. -/
def geneless_population : List (List ℚ) := [[], []]

/-- Three chromosomes of three genes. -/
def sample_population : List (List ℚ) := [[1, 2, 3], [4, 5, 6], [7, 8, 9]]

/-- The number of positions at which two chromosomes hold different genes. -/
def differing_genes (original changed : List ℚ) : Nat :=
  ((original.zip changed).filter (fun pair => decide (pair.1 ≠ pair.2))).length

end EvoAlgos

namespace EvoAlgos

/-! ## Auxiliary facts about the library functions -/

theorem mapM_option_iff {α β : Type} (f : α → Option β) :
    ∀ (l : List α) (out : List β),
      l.mapM f = some out ↔ List.Forall₂ (fun a b => f a = some b) l out
  | [], out => by
    rw [List.mapM_nil]
    cases out <;> simp
  | a :: l, out => by
    rw [List.mapM_cons]
    cases hfa : f a with
    | none =>
      simp only [Option.bind_eq_bind, Option.none_bind, reduceCtorEq, false_iff]
      intro h
      cases h with
      | cons h1 _ => rw [hfa] at h1; exact absurd h1 (by simp)
    | some b =>
      cases hl : l.mapM f with
      | none =>
        simp only [Option.bind_eq_bind, Option.some_bind, Option.none_bind, reduceCtorEq,
          false_iff]
        intro h
        cases h with
        | cons _ h2 =>
          rw [← mapM_option_iff f l] at h2
          rw [hl] at h2
          exact absurd h2 (by simp)
      | some tl =>
        have ih := (mapM_option_iff f l tl).mp hl
        simp only [Option.bind_eq_bind, Option.some_bind, Option.pure_def, Option.some.injEq]
        constructor
        · intro h
          subst h
          exact List.Forall₂.cons hfa ih
        · intro h
          cases h with
          | cons h1 h2 =>
            rw [hfa] at h1
            have h3 := (mapM_option_iff f l _).mpr h2
            rw [hl] at h3
            simp only [Option.some.injEq] at h1 h3
            rw [h1, h3]

theorem forall₂_getElem?_left {α β : Type} {R : α → β → Prop} :
    ∀ {l₁ : List α} {l₂ : List β}, List.Forall₂ R l₁ l₂ →
      ∀ (k : Nat) a, l₁[k]? = some a → ∃ b, l₂[k]? = some b ∧ R a b
  | _, _, List.Forall₂.nil, k, a, h => by simp at h
  | _, _, List.Forall₂.cons h1 h2, 0, a, h => by
    simp only [List.getElem?_cons_zero, Option.some.injEq] at h
    subst h
    exact ⟨_, by simp, h1⟩
  | _, _, List.Forall₂.cons _ h2, k + 1, a, h => by
    simp only [List.getElem?_cons_succ] at h
    obtain ⟨b, hb, hr⟩ := forall₂_getElem?_left h2 k a h
    exact ⟨b, by simpa using hb, hr⟩

theorem forall₂_getElem?_right {α β : Type} {R : α → β → Prop} :
    ∀ {l₁ : List α} {l₂ : List β}, List.Forall₂ R l₁ l₂ →
      ∀ (k : Nat) b, l₂[k]? = some b → ∃ a, l₁[k]? = some a ∧ R a b
  | _, _, List.Forall₂.nil, k, a, h => by simp at h
  | _, _, List.Forall₂.cons h1 h2, 0, a, h => by
    simp only [List.getElem?_cons_zero, Option.some.injEq] at h
    subst h
    exact ⟨_, by simp, h1⟩
  | _, _, List.Forall₂.cons _ h2, k + 1, a, h => by
    simp only [List.getElem?_cons_succ] at h
    obtain ⟨b, hb, hr⟩ := forall₂_getElem?_right h2 k a h
    exact ⟨b, by simpa using hb, hr⟩

theorem max_element_loop_spec :
    ∀ (xs pre : List ℚ) (largest : Nat) (value : ℚ),
      pre[largest]? = some value →
      (∀ (k : Nat) x, pre[k]? = some x → x ≤ value) →
      (∀ (k : Nat) x, k < largest → pre[k]? = some x → x < value) →
      ∃ w, (pre ++ xs)[max_element_loop largest value pre.length xs]? = some w ∧
        (∀ (k : Nat) x, (pre ++ xs)[k]? = some x → x ≤ w) ∧
        (∀ (k : Nat) x, k < max_element_loop largest value pre.length xs →
          (pre ++ xs)[k]? = some x → x < w)
  | [], pre, largest, value, hv, hle, hlt => by
    simp only [List.append_nil, max_element_loop]
    exact ⟨value, hv, hle, hlt⟩
  | x :: xs, pre, largest, value, hv, hle, hlt => by
    have happ : pre ++ x :: xs = (pre ++ [x]) ++ xs := by simp
    have hlen : (pre ++ [x]).length = pre.length + 1 := by simp
    have hsplit : ∀ (k : Nat) y, (pre ++ [x])[k]? = some y →
        (k < pre.length ∧ pre[k]? = some y) ∨ (k = pre.length ∧ y = x) := by
      intro k y hk
      rcases Nat.lt_or_ge k pre.length with h | h
      · left
        rw [List.getElem?_append_left h] at hk
        exact ⟨h, hk⟩
      · right
        rw [List.getElem?_append_right h] at hk
        rcases Nat.eq_zero_or_pos (k - pre.length) with h0 | h0
        · rw [h0] at hk
          simp only [List.getElem?_cons_zero, Option.some.injEq] at hk
          exact ⟨by omega, hk.symm⟩
        · obtain ⟨m, hm⟩ := Nat.exists_eq_succ_of_ne_zero (Nat.pos_iff_ne_zero.mp h0)
          rw [hm] at hk
          simp at hk
    unfold max_element_loop
    by_cases hcmp : value < x
    · rw [if_pos hcmp, happ, ← hlen]
      apply max_element_loop_spec xs (pre ++ [x]) pre.length x
      · simp
      · intro k y hk
        rcases hsplit k y hk with ⟨_, h⟩ | ⟨_, h⟩
        · exact le_of_lt (lt_of_le_of_lt (hle k y h) hcmp)
        · exact le_of_eq h
      · intro k y hkl hk
        rcases hsplit k y hk with ⟨_, h⟩ | ⟨h, _⟩
        · exact lt_of_le_of_lt (hle k y h) hcmp
        · omega
    · rw [if_neg hcmp, happ, ← hlen]
      have hlarge : largest < pre.length := by
        rcases Nat.lt_or_ge largest pre.length with h | h
        · exact h
        · rw [List.getElem?_eq_none h] at hv
          exact absurd hv (by simp)
      apply max_element_loop_spec xs (pre ++ [x]) largest value
      · rw [List.getElem?_append_left hlarge]
        exact hv
      · intro k y hk
        rcases hsplit k y hk with ⟨_, h⟩ | ⟨_, h⟩
        · exact hle k y h
        · rw [h]
          exact not_lt.mp hcmp
      · intro k y hkl hk
        rcases hsplit k y hk with ⟨_, h⟩ | ⟨h, _⟩
        · exact hlt k y hkl h
        · omega

/-- The position returned by `std::max_element` on a non-empty range holds a greatest
element, and every earlier position holds a strictly smaller one. -/
theorem max_element_spec (l : List ℚ) (hne : l ≠ []) :
    ∃ w, l[max_element l]? = some w ∧
      (∀ (k : Nat) x, l[k]? = some x → x ≤ w) ∧
      (∀ (k : Nat) x, k < max_element l → l[k]? = some x → x < w) := by
  cases l with
  | nil => exact absurd rfl hne
  | cons x xs =>
    have h := max_element_loop_spec xs [x] 0 x (by simp)
      (by
        intro k y hk
        cases k with
        | zero => simp at hk; exact le_of_eq hk.symm
        | succ k => simp at hk)
      (by intro k y hk; omega)
    simpa [max_element] using h

theorem getElem?_defined {α : Type} {l : List α} {i : Nat} (h : i < l.length) :
    ∃ a, l[i]? = some a :=
  ⟨l[i], List.getElem?_eq_getElem h⟩

theorem lt_length_of_getElem? {α : Type} {l : List α} {i : Nat} {a : α}
    (h : l[i]? = some a) : i < l.length := by
  rcases Nat.lt_or_ge i l.length with h' | h'
  · exact h'
  · rw [List.getElem?_eq_none h'] at h
    exact absurd h (by simp)

theorem mapM_option_defined {α β : Type} (f : α → Option β) :
    ∀ (l : List α), (∀ a ∈ l, ∃ b, f a = some b) → ∃ out, l.mapM f = some out
  | [], _ => ⟨[], by rw [List.mapM_nil]; rfl⟩
  | a :: l, h => by
    obtain ⟨b, hb⟩ := h a (List.mem_cons_self a l)
    obtain ⟨out, hout⟩ := mapM_option_defined f l
      (fun a' ha' => h a' (List.mem_cons_of_mem a ha'))
    refine ⟨b :: out, ?_⟩
    rw [mapM_option_iff]
    exact List.Forall₂.cons hb ((mapM_option_iff f l out).mp hout)

/-! ## Tournament selection -/

namespace GeneticAlgorithm

/-- The winner of a tournament is the listed index at the first position of greatest
score. -/
theorem tournament_selection_spec (ga : GeneticAlgorithm)
    (chromosome_indices : List Nat) (hne : chromosome_indices ≠ [])
    (hvalid : ∀ x ∈ chromosome_indices, x < ga._scores.length) :
    ∃ (position winner : Nat) (best : ℚ),
      ga._tournament_selection chromosome_indices = some winner ∧
      chromosome_indices[position]? = some winner ∧
      winner ∈ chromosome_indices ∧ winner < ga._scores.length ∧
      ga._scores[winner]? = some best ∧
      (∀ x ∈ chromosome_indices, ∀ s, ga._scores[x]? = some s → s ≤ best) ∧
      (∀ (q x : Nat) (s : ℚ), q < position → chromosome_indices[q]? = some x →
        ga._scores[x]? = some s → s < best) := by
  obtain ⟨selected_scores, hsel⟩ :=
    mapM_option_defined (fun index => ga._scores[index]?) chromosome_indices
      (fun x hx => getElem?_defined (hvalid x hx))
  have hrel := (mapM_option_iff _ _ _).mp hsel
  have hsne : selected_scores ≠ [] := by
    intro h
    rw [h] at hrel
    cases hrel
    exact hne rfl
  obtain ⟨best, hbest, hle, hlt⟩ := max_element_spec selected_scores hsne
  obtain ⟨winner, hwin, hscore⟩ := forall₂_getElem?_right hrel _ _ hbest
  have hmem : winner ∈ chromosome_indices := List.getElem?_mem hwin
  refine ⟨max_element selected_scores, winner, best, ?_, hwin, hmem, hvalid winner hmem,
    hscore, ?_, ?_⟩
  · unfold _tournament_selection
    rw [hsel]
    exact hwin
  · intro x hx s hs
    obtain ⟨k, hk⟩ := List.getElem?_of_mem hx
    obtain ⟨s', hs', hxs⟩ := forall₂_getElem?_left hrel k x hk
    have : s' = s := by
      rw [hs] at hxs
      exact (Option.some.inj hxs).symm
    rw [← this]
    exact hle k s' hs'
  · intro q x s hq hx hs
    obtain ⟨s', hs', hxs⟩ := forall₂_getElem?_left hrel q x hx
    have : s' = s := by
      rw [hs] at hxs
      exact (Option.some.inj hxs).symm
    rw [← this]
    exact hlt q s' hq hs'

/-- The sample of `_pick_random_chromosome` is the leading part of the shuffled identity
vector: `k + 1` pairwise distinct valid positions. -/
theorem pick_random_chromosome_spec (ga : GeneticAlgorithm) (k : Int)
    (shuffle : List Nat → List Nat) (hk0 : 0 ≤ k) (hk : k + 1 ≤ (ga._pop_number : Int))
    (hperm : (shuffle (List.range ga._pop_number)).Perm (List.range ga._pop_number)) :
    ∃ run_indices, ga._pick_random_chromosome k shuffle = some run_indices ∧
      run_indices = (shuffle (List.range ga._pop_number)).take (k + 1).toNat ∧
      (run_indices.length : Int) = k + 1 ∧ run_indices.Nodup ∧
      ∀ x ∈ run_indices, x < ga._pop_number := by
  have hlen : (shuffle (List.range ga._pop_number)).length = ga._pop_number := by
    rw [hperm.length_eq, List.length_range]
  refine ⟨(shuffle (List.range ga._pop_number)).take (k + 1).toNat, ?_, rfl, ?_, ?_, ?_⟩
  · unfold _pick_random_chromosome
    simp only [hlen]
    rw [if_pos ⟨by omega, hk⟩]
  · rw [List.length_take, hlen]
    omega
  · exact (List.take_sublist _ _).nodup (hperm.nodup_iff.mpr (List.nodup_range _))
  · intro x hx
    have hx' : x ∈ List.range ga._pop_number :=
      hperm.subset ((List.take_sublist _ _).subset hx)
    exact List.mem_range.mp hx'

/-- Every parent slot holds the current chromosome at the index that won its own
tournament. -/
theorem select_parents_spec (ga : GeneticAlgorithm) (shuffle : Nat → List Nat → List Nat)
    (hpop : ga._current_population.length = ga._pop_number)
    (hscores : ga._scores.length = ga._pop_number)
    (hk0 : 0 ≤ ga._k_tournament_selection)
    (hk : ga._k_tournament_selection + 1 ≤ (ga._pop_number : Int))
    (hperm : ∀ i, i < ga._pop_number →
      (shuffle i (List.range ga._pop_number)).Perm (List.range ga._pop_number)) :
    ∃ parents, ga.select_parents shuffle = some parents ∧
      parents.length = ga._pop_number ∧
      (∀ i, i < ga._pop_number → ∃ (run_indices : List Nat) (winner : Nat)
          (chromosome : List ℚ),
        ga._pick_random_chromosome ga._k_tournament_selection (shuffle i) =
          some run_indices ∧
        ga._tournament_selection run_indices = some winner ∧
        winner < ga._pop_number ∧
        ga._current_population[winner]? = some chromosome ∧
        parents[i]? = some chromosome) ∧
      (∀ parent ∈ parents, parent ∈ ga._current_population) := by
  have hslot : ∀ i, i < ga._pop_number → ∃ (run_indices : List Nat) (winner : Nat)
      (chromosome : List ℚ),
      ga._pick_random_chromosome ga._k_tournament_selection (shuffle i) =
        some run_indices ∧
      ga._tournament_selection run_indices = some winner ∧
      winner < ga._pop_number ∧
      ga._current_population[winner]? = some chromosome ∧
      ga.select_parent (shuffle i) = some chromosome := by
    intro i hi
    obtain ⟨run_indices, hrun, _, hlen, _, hin⟩ :=
      pick_random_chromosome_spec ga _ (shuffle i) hk0 hk (hperm i hi)
    have hne : run_indices ≠ [] := by
      intro h
      rw [h] at hlen
      simp only [List.length_nil, Nat.cast_zero] at hlen
      omega
    obtain ⟨_, winner, _, hwin, _, hmem, _, _, _, _⟩ :=
      tournament_selection_spec ga run_indices hne
        (fun x hx => by rw [hscores]; exact hin x hx)
    have hw : winner < ga._pop_number := hin winner hmem
    obtain ⟨chromosome, hch⟩ :=
      getElem?_defined (l := ga._current_population) (by rw [hpop]; exact hw)
    refine ⟨run_indices, winner, chromosome, hrun, hwin, hw, hch, ?_⟩
    unfold select_parent
    rw [hrun]
    simp only [hwin]
    exact hch
  obtain ⟨parents, hparents⟩ :=
    mapM_option_defined (fun i => ga.select_parent (shuffle i)) (List.range ga._pop_number)
      (fun i hi => by
        obtain ⟨_, _, chromosome, _, _, _, _, h⟩ := hslot i (List.mem_range.mp hi)
        exact ⟨chromosome, h⟩)
  have hrel := (mapM_option_iff _ _ _).mp hparents
  have hlen : parents.length = ga._pop_number := by
    rw [← hrel.length_eq, List.length_range]
  refine ⟨parents, hparents, hlen, ?_, ?_⟩
  · intro i hi
    obtain ⟨run_indices, winner, chromosome, hrun, hwin, hw, hch, hsel⟩ := hslot i hi
    refine ⟨run_indices, winner, chromosome, hrun, hwin, hw, hch, ?_⟩
    have hrange : (List.range ga._pop_number)[i]? = some i := by
      rw [List.getElem?_range hi]
    obtain ⟨parent, hparent, hp⟩ := forall₂_getElem?_left hrel i i hrange
    rw [hparent, ← hsel, ← hp]
  · intro parent hparent
    obtain ⟨i, hi⟩ := List.getElem?_of_mem hparent
    obtain ⟨i', hi', hp⟩ := forall₂_getElem?_right hrel i parent hi
    have hlt : i' < ga._pop_number := List.mem_range.mp (List.getElem?_mem hi')
    obtain ⟨_, _, chromosome, _, _, _, hch, hsel⟩ := hslot i' hlt
    have : parent = chromosome := by
      rw [hsel] at hp
      exact (Option.some.inj hp).symm
    rw [this]
    exact List.getElem?_mem hch

end GeneticAlgorithm

/-! ## Crossover -/

theorem fired_count_succ (threshold : ℚ) (probability : Nat → ℚ) :
    ∀ (t i : Nat), fired_count threshold probability i (t + 1) =
      fired_count threshold probability i t +
        (if probability (i + t) < threshold then 1 else 0)
  | 0, i => by simp [fired_count]
  | t + 1, i => by
    rw [fired_count, fired_count_succ threshold probability t (i + 1), fired_count]
    have : i + 1 + t = i + (t + 1) := by omega
    rw [this]
    omega

theorem fired_count_all (threshold : ℚ) (probability : Nat → ℚ)
    (h : ∀ i, probability i < threshold) :
    ∀ (t i : Nat), fired_count threshold probability i t = t
  | 0, _ => rfl
  | t + 1, i => by
    rw [fired_count, if_pos (h i), fired_count_all threshold probability h t (i + 1)]
    omega

theorem fired_count_none (threshold : ℚ) (probability : Nat → ℚ)
    (h : ∀ i, ¬ probability i < threshold) :
    ∀ (t i : Nat), fired_count threshold probability i t = 0
  | 0, _ => rfl
  | t + 1, i => by
    rw [fired_count, if_neg (h i), fired_count_none threshold probability h t (i + 1)]

theorem swap_ranges_defined :
    ∀ (n : Nat) (first second : List ℚ), n ≤ first.length → n ≤ second.length →
      ∃ first' second', swap_ranges n first second = some (first', second')
  | 0, first, second, _, _ => ⟨first, second, rfl⟩
  | n + 1, [], _, h, _ => by simp at h
  | n + 1, _ :: _, [], _, h => by simp at h
  | n + 1, a :: first, b :: second, h1, h2 => by
    obtain ⟨first', second', h⟩ := swap_ranges_defined n first second
      (by simpa using h1) (by simpa using h2)
    exact ⟨b :: first', a :: second', by simp [swap_ranges, h]⟩

theorem swap_ranges_spec :
    ∀ (n : Nat) (first second first' second' : List ℚ),
      swap_ranges n first second = some (first', second') →
      n ≤ first.length ∧ n ≤ second.length ∧
      first'.length = first.length ∧ second'.length = second.length ∧
      ∀ g : Nat, first'[g]? = (if g < n then second[g]? else first[g]?) ∧
        second'[g]? = (if g < n then first[g]? else second[g]?)
  | 0, first, second, first', second', h => by
    simp only [swap_ranges, Option.some.injEq, Prod.mk.injEq] at h
    obtain ⟨h1, h2⟩ := h
    subst h1 h2
    simp
  | n + 1, [], _, _, _, h => by simp [swap_ranges] at h
  | n + 1, _ :: _, [], _, _, h => by simp [swap_ranges] at h
  | n + 1, a :: first, b :: second, first', second', h => by
    unfold swap_ranges at h
    cases hrec : swap_ranges n first second with
    | none => rw [hrec] at h; simp at h
    | some r =>
      obtain ⟨f, s⟩ := r
      rw [hrec] at h
      simp only [Option.some.injEq, Prod.mk.injEq] at h
      obtain ⟨h1, h2⟩ := h
      subst h1 h2
      obtain ⟨hn1, hn2, hl1, hl2, hg⟩ := swap_ranges_spec n first second f s hrec
      refine ⟨by simpa using hn1, by simpa using hn2, by simp [hl1], by simp [hl2], ?_⟩
      intro g
      cases g with
      | zero => simp
      | succ g =>
        have := hg g
        simp only [List.getElem?_cons_succ, Nat.add_lt_add_iff_right]
        exact this

namespace GeneticAlgorithm

theorem crossover_loop_pair (cp : ℚ) (probability : Nat → ℚ) (point : Nat → Nat)
    (first second : List ℚ) (rest : List (List ℚ)) (i j : Nat) :
    crossover_loop cp probability point (first :: second :: rest) i j =
      if probability i < cp then
        match swap_ranges (point j + 1) first second with
        | some (first', second') =>
          match crossover_loop cp probability point rest (i + 1) (j + 1) with
          | some (out, draws) => some (first' :: second' :: out, draws)
          | none => none
        | none => none
      else
        match crossover_loop cp probability point rest (i + 1) j with
        | some (out, draws) => some (first :: second :: out, draws)
        | none => none := by
  rw [crossover_loop]

theorem crossover_loop_nil (cp : ℚ) (probability : Nat → ℚ) (point : Nat → Nat) (i j : Nat) :
    crossover_loop cp probability point [] i j = some ([], i, j) := by
  rw [crossover_loop]
  intro first second rest h
  simp at h

theorem crossover_loop_single (cp : ℚ) (probability : Nat → ℚ) (point : Nat → Nat)
    (last : List ℚ) (i j : Nat) :
    crossover_loop cp probability point [last] i j = some ([last], i, j) := by
  rw [crossover_loop]
  intro first second rest h
  simp at h

/-- What a call of the loop of `crossover` that returns has done: the sizes, the numbers
of samples drawn, the fate of every complete pair, and the positions after the last
complete pair. -/
theorem crossover_loop_spec (cp : ℚ) (probability : Nat → ℚ) (point : Nat → Nat) :
    ∀ (population out : List (List ℚ)) (i j i' j' : Nat),
      crossover_loop cp probability point population i j = some (out, i', j') →
      out.length = population.length ∧
      i' = i + population.length / 2 ∧
      j' = j + fired_count cp probability i (population.length / 2) ∧
      (∀ t, 2 * t + 1 < population.length →
        ∃ first second, population[2 * t]? = some first ∧
          population[2 * t + 1]? = some second ∧
          if probability (i + t) < cp then
            ∃ first' second',
              swap_ranges (point (j + fired_count cp probability i t) + 1) first second =
                some (first', second') ∧
              out[2 * t]? = some first' ∧ out[2 * t + 1]? = some second'
          else out[2 * t]? = some first ∧ out[2 * t + 1]? = some second) ∧
      (∀ m, 2 * (population.length / 2) ≤ m → out[m]? = population[m]?)
  | [], out, i, j, i', j', h => by
    rw [crossover_loop_nil] at h
    simp only [Option.some.injEq, Prod.mk.injEq] at h
    obtain ⟨h1, h2, h3⟩ := h
    subst h1 h2 h3
    simp [fired_count]
  | [last], out, i, j, i', j', h => by
    rw [crossover_loop_single] at h
    simp only [Option.some.injEq, Prod.mk.injEq] at h
    obtain ⟨h1, h2, h3⟩ := h
    subst h1 h2 h3
    simp [fired_count]
  | first :: second :: rest, out, i, j, i', j', h => by
    rw [crossover_loop_pair] at h
    have hhalf : (first :: second :: rest).length / 2 = rest.length / 2 + 1 := by
      simp only [List.length_cons]
      omega
    by_cases hfire : probability i < cp
    · rw [if_pos hfire] at h
      cases hswap : swap_ranges (point j + 1) first second with
      | none => rw [hswap] at h; simp at h
      | some r =>
        obtain ⟨first', second'⟩ := r
        rw [hswap] at h
        cases hrec : crossover_loop cp probability point rest (i + 1) (j + 1) with
        | none => rw [hrec] at h; simp at h
        | some r =>
          obtain ⟨out', i'', j''⟩ := r
          rw [hrec] at h
          simp only [Option.some.injEq, Prod.mk.injEq] at h
          obtain ⟨h1, h2, h3⟩ := h
          subst h1 h2 h3
          obtain ⟨hlen, hi, hj, hpairs, hrest⟩ :=
            crossover_loop_spec cp probability point rest out' (i + 1) (j + 1) _ _ hrec
          refine ⟨by simp [hlen], by rw [hi, hhalf]; omega, ?_, ?_, ?_⟩
          · rw [hj, hhalf, fired_count, if_pos hfire]
            omega
          · intro t ht
            cases t with
            | zero =>
              refine ⟨first, second, by simp, by simp, ?_⟩
              rw [Nat.add_zero, if_pos hfire]
              exact ⟨first', second', by simpa [fired_count] using hswap, by simp, by simp⟩
            | succ t =>
              have ht' : 2 * t + 1 < rest.length := by
                simp only [List.length_cons] at ht
                omega
              obtain ⟨a, b, ha, hb, hcase⟩ := hpairs t ht'
              have e1 : 2 * (t + 1) = 2 * t + 1 + 1 := by omega
              have e2 : i + 1 + t = i + (t + 1) := by omega
              have e3 : j + 1 + fired_count cp probability (i + 1) t =
                  j + fired_count cp probability i (t + 1) := by
                rw [fired_count, if_pos hfire]
                omega
              refine ⟨a, b, ?_, ?_, ?_⟩
              · rw [e1]
                simpa using ha
              · rw [e1]
                simpa using hb
              · rw [e2, e3] at hcase
                rw [e1]
                simpa using hcase
          · intro m hm
            rw [hhalf] at hm
            obtain ⟨m', hm'⟩ : ∃ m', m = m' + 2 := ⟨m - 2, by omega⟩
            subst hm'
            simp only [List.getElem?_cons_succ]
            exact hrest m' (by omega)
    · rw [if_neg hfire] at h
      cases hrec : crossover_loop cp probability point rest (i + 1) j with
      | none => rw [hrec] at h; simp at h
      | some r =>
        obtain ⟨out', i'', j''⟩ := r
        rw [hrec] at h
        simp only [Option.some.injEq, Prod.mk.injEq] at h
        obtain ⟨h1, h2, h3⟩ := h
        subst h1 h2 h3
        obtain ⟨hlen, hi, hj, hpairs, hrest⟩ :=
          crossover_loop_spec cp probability point rest out' (i + 1) j _ _ hrec
        refine ⟨by simp [hlen], by rw [hi, hhalf]; omega, ?_, ?_, ?_⟩
        · rw [hj, hhalf, fired_count, if_neg hfire]
          omega
        · intro t ht
          cases t with
          | zero =>
            refine ⟨first, second, by simp, by simp, ?_⟩
            rw [Nat.add_zero, if_neg hfire]
            exact ⟨by simp, by simp⟩
          | succ t =>
            have ht' : 2 * t + 1 < rest.length := by
              simp only [List.length_cons] at ht
              omega
            obtain ⟨a, b, ha, hb, hcase⟩ := hpairs t ht'
            have e1 : 2 * (t + 1) = 2 * t + 1 + 1 := by omega
            have e2 : i + 1 + t = i + (t + 1) := by omega
            have e3 : j + fired_count cp probability (i + 1) t =
                j + fired_count cp probability i (t + 1) := by
              rw [fired_count, if_neg hfire]
              omega
            refine ⟨a, b, ?_, ?_, ?_⟩
            · rw [e1]
              simpa using ha
            · rw [e1]
              simpa using hb
            · rw [e2, e3] at hcase
              rw [e1]
              simpa using hcase
        · intro m hm
          rw [hhalf] at hm
          obtain ⟨m', hm'⟩ : ∃ m', m = m' + 2 := ⟨m - 2, by omega⟩
          subst hm'
          simp only [List.getElem?_cons_succ]
          exact hrest m' (by omega)

/-- The loop of `crossover` returns when every chromosome is long enough for every
crossover point that can be drawn. -/
theorem crossover_loop_defined (cp : ℚ) (probability : Nat → ℚ) (point : Nat → Nat)
    (n : Nat) (hpoint : ∀ j, point j < n) :
    ∀ (population : List (List ℚ)) (i j : Nat),
      (∀ chromosome ∈ population, chromosome.length = n) →
      ∃ out i' j', crossover_loop cp probability point population i j = some (out, i', j')
  | [], i, j, _ => ⟨[], i, j, crossover_loop_nil _ _ _ _ _⟩
  | [last], i, j, _ => ⟨[last], i, j, crossover_loop_single _ _ _ _ _ _⟩
  | first :: second :: rest, i, j, hlen => by
    have h1 : first.length = n := hlen first (by simp)
    have h2 : second.length = n := hlen second (by simp)
    have hrest : ∀ chromosome ∈ rest, chromosome.length = n :=
      fun c hc => hlen c (by simp [hc])
    rw [crossover_loop_pair]
    by_cases hfire : probability i < cp
    · rw [if_pos hfire]
      obtain ⟨first', second', hswap⟩ := swap_ranges_defined (point j + 1) first second
        (by rw [h1]; exact hpoint j) (by rw [h2]; exact hpoint j)
      obtain ⟨out, i', j', hrec⟩ :=
        crossover_loop_defined cp probability point n hpoint rest (i + 1) (j + 1) hrest
      exact ⟨first' :: second' :: out, i', j', by rw [hswap]; simp only [hrec]⟩
    · rw [if_neg hfire]
      obtain ⟨out, i', j', hrec⟩ :=
        crossover_loop_defined cp probability point n hpoint rest (i + 1) j hrest
      exact ⟨first :: second :: out, i', j', by simp only [hrec]⟩

/-- On a population whose first chromosome has a gene `crossover` is its loop. -/
theorem crossover_eq_loop (ga : GeneticAlgorithm) (first : List ℚ) (rest : List (List ℚ))
    (probability : Nat → ℚ) (point : Nat → Nat) (hfirst : 1 ≤ first.length) :
    ga.crossover (first :: rest) probability point =
      match crossover_loop ga._crossover_probability probability point (first :: rest)
          0 0 with
      | some (out, _) => some out
      | none => none := by
  unfold crossover
  simp only
  rw [if_neg (by omega)]

/-- On a population whose first chromosome has a gene `mutate` is its loop. -/
theorem mutate_eq_loop (ga : GeneticAlgorithm) (first : List ℚ) (rest : List (List ℚ))
    (problem : OptimizationProblem) (probability : Nat → ℚ) (index : Nat → Nat)
    (number : Nat → ℚ) (hfirst : 1 ≤ first.length) :
    ga.mutate (first :: rest) problem probability index number =
      match mutate_loop ga._mutation_probability problem.constraints probability index
          number (first :: rest) 0 0 with
      | some (out, _) => some out
      | none => none := by
  unfold mutate
  simp only
  rw [if_neg (by omega)]

/-- On a non-empty population of chromosomes of `n` genes, with crossover points in
`[0, n - 1]`, `crossover` returns; a pair for which crossover fires has its genes up to
the crossover point exchanged, every other gene stays where it is. -/
theorem crossover_spec (ga : GeneticAlgorithm) (population : List (List ℚ))
    (probability : Nat → ℚ) (point : Nat → Nat) (n : Nat)
    (hne : population ≠ [])
    (hlen : ∀ chromosome ∈ population, chromosome.length = n)
    (hpoint : ∀ j, point j < n) :
    ∃ out, ga.crossover population probability point = some out ∧
      crossover_loop ga._crossover_probability probability point population 0 0 =
        some (out, population.length / 2,
          fired_count ga._crossover_probability probability 0 (population.length / 2)) ∧
      out.length = population.length ∧
      (∀ chromosome ∈ out, chromosome.length = n) ∧
      (∀ t, 2 * t + 1 < population.length → ∀ g,
        gene out (2 * t) g =
          (if probability t < ga._crossover_probability ∧
              g ≤ point (fired_count ga._crossover_probability probability 0 t)
            then gene population (2 * t + 1) g else gene population (2 * t) g) ∧
        gene out (2 * t + 1) g =
          (if probability t < ga._crossover_probability ∧
              g ≤ point (fired_count ga._crossover_probability probability 0 t)
            then gene population (2 * t) g else gene population (2 * t + 1) g)) ∧
      (∀ m, 2 * (population.length / 2) ≤ m → out[m]? = population[m]?) := by
  obtain ⟨out, i', j', hloop⟩ :=
    crossover_loop_defined ga._crossover_probability probability point n hpoint
      population 0 0 hlen
  obtain ⟨hlength, hi, hj, hpairs, hrest⟩ :=
    crossover_loop_spec ga._crossover_probability probability point population out 0 0 i' j'
      hloop
  rw [Nat.zero_add] at hi hj
  subst hi hj
  have hgenes : ∀ t, 2 * t + 1 < population.length →
      ∃ a b a' b', population[2 * t]? = some a ∧ population[2 * t + 1]? = some b ∧
        out[2 * t]? = some a' ∧ out[2 * t + 1]? = some b' ∧
        a'.length = a.length ∧ b'.length = b.length ∧
        ∀ g : Nat,
          a'[g]? = (if probability t < ga._crossover_probability ∧
            g ≤ point (fired_count ga._crossover_probability probability 0 t)
            then b[g]? else a[g]?) ∧
          b'[g]? = (if probability t < ga._crossover_probability ∧
            g ≤ point (fired_count ga._crossover_probability probability 0 t)
            then a[g]? else b[g]?) := by
    intro t ht
    obtain ⟨a, b, ha, hb, hcase⟩ := hpairs t ht
    rw [Nat.zero_add] at hcase
    by_cases hfire : probability t < ga._crossover_probability
    · rw [if_pos hfire, Nat.zero_add] at hcase
      obtain ⟨a', b', hswap, ha', hb'⟩ := hcase
      obtain ⟨_, _, hl1, hl2, hg⟩ := swap_ranges_spec _ _ _ _ _ hswap
      refine ⟨a, b, a', b', ha, hb, ha', hb', hl1, hl2, ?_⟩
      intro g
      have := hg g
      simp only [Nat.lt_succ_iff] at this
      simpa [hfire] using this
    · rw [if_neg hfire] at hcase
      exact ⟨a, b, a, b, ha, hb, hcase.1, hcase.2, rfl, rfl, fun g => by simp [hfire]⟩
  refine ⟨out, ?_, hloop, hlength, ?_, ?_, hrest⟩
  · cases population with
    | nil => exact absurd rfl hne
    | cons first rest =>
      have hfirst : 1 ≤ first.length := by
        rw [hlen first (by simp)]
        exact Nat.lt_of_le_of_lt (Nat.zero_le _) (hpoint 0)
      rw [crossover_eq_loop ga first rest probability point hfirst, hloop]
  · intro chromosome hc
    obtain ⟨m, hm⟩ := List.getElem?_of_mem hc
    have hmlt : m < population.length := by
      rw [← hlength]
      exact lt_length_of_getElem? hm
    by_cases hlate : 2 * (population.length / 2) ≤ m
    · rw [hrest m hlate] at hm
      exact hlen chromosome (List.getElem?_mem hm)
    · obtain ⟨a, b, a', b', ha, hb, ha', hb', hl1, hl2, _⟩ := hgenes (m / 2) (by omega)
      rcases Nat.mod_two_eq_zero_or_one m with hpar | hpar
      · have e : 2 * (m / 2) = m := by omega
        rw [e] at ha ha'
        rw [hm] at ha'
        rw [Option.some.inj ha', hl1]
        exact hlen a (List.getElem?_mem ha)
      · have e : 2 * (m / 2) + 1 = m := by omega
        rw [e] at hb hb'
        rw [hm] at hb'
        rw [Option.some.inj hb', hl2]
        exact hlen b (List.getElem?_mem hb)
  · intro t ht g
    obtain ⟨a, b, a', b', ha, hb, ha', hb', _, _, hg⟩ := hgenes t ht
    simp only [gene, ha, hb, ha', hb']
    exact hg g

end GeneticAlgorithm

end EvoAlgos

/-! ## The generic crossover operator -/

namespace evy

section

variable {C S P : Type} [LT P] [DecidableRel (fun a b : P => a < b)]
  (crossoverProbability : Nat → P) (crossoverStrategy : S → C → C → C × C × S)
  (generator : Nat → P)

theorem Crossover_nil (g p : Nat) (s : S) :
    Crossover crossoverProbability crossoverStrategy generator [] g p s =
      { chromosomes := [], generator_calls := g, probability_calls := p,
        strategy_state := s } := by
  rw [Crossover]
  intro first second rest h
  simp at h

theorem Crossover_single (last : C) (g p : Nat) (s : S) :
    Crossover crossoverProbability crossoverStrategy generator [last] g p s =
      { chromosomes := [last], generator_calls := g, probability_calls := p,
        strategy_state := s } := by
  rw [Crossover]
  intro first second rest h
  simp at h

theorem Crossover_pair_fired (first second : C) (rest : List C) (g p : Nat) (s : S)
    (h : generator g < crossoverProbability p) :
    Crossover crossoverProbability crossoverStrategy generator (first :: second :: rest) g p s =
      { Crossover crossoverProbability crossoverStrategy generator rest (g + 1) (p + 1)
          (crossoverStrategy s first second).2.2 with
        chromosomes := (crossoverStrategy s first second).1 ::
          (crossoverStrategy s first second).2.1 ::
          (Crossover crossoverProbability crossoverStrategy generator rest (g + 1) (p + 1)
            (crossoverStrategy s first second).2.2).chromosomes } := by
  rw [Crossover, if_pos h]

theorem Crossover_pair_skipped (first second : C) (rest : List C) (g p : Nat) (s : S)
    (h : ¬ generator g < crossoverProbability p) :
    Crossover crossoverProbability crossoverStrategy generator (first :: second :: rest) g p s =
      { Crossover crossoverProbability crossoverStrategy generator rest (g + 1) (p + 1) s with
        chromosomes := first :: second ::
          (Crossover crossoverProbability crossoverStrategy generator rest (g + 1) (p + 1)
            s).chromosomes } := by
  rw [Crossover, if_neg h]

/-- The container keeps its size, one generator sample and one probability value are
taken per complete pair, and positions after the last complete pair are untouched. -/
theorem Crossover_frame :
    ∀ (chromosomes : List C) (g p : Nat) (s : S),
      (Crossover crossoverProbability crossoverStrategy generator chromosomes g p
        s).chromosomes.length = chromosomes.length ∧
      (Crossover crossoverProbability crossoverStrategy generator chromosomes g p
        s).generator_calls = g + chromosomes.length / 2 ∧
      (Crossover crossoverProbability crossoverStrategy generator chromosomes g p
        s).probability_calls = p + chromosomes.length / 2 ∧
      (∀ m, 2 * (chromosomes.length / 2) ≤ m →
        (Crossover crossoverProbability crossoverStrategy generator chromosomes g p
          s).chromosomes[m]? = chromosomes[m]?)
  | [], g, p, s => by
    rw [Crossover_nil]
    simp
  | [last], g, p, s => by
    rw [Crossover_single]
    simp
  | first :: second :: rest, g, p, s => by
    have hhalf : (first :: second :: rest).length / 2 = rest.length / 2 + 1 := by
      simp only [List.length_cons]
      omega
    have hshift : ∀ m, 2 * (rest.length / 2 + 1) ≤ m → ∃ m', m = m' + 2 ∧
        2 * (rest.length / 2) ≤ m' := fun m hm => ⟨m - 2, by omega, by omega⟩
    by_cases hfire : generator g < crossoverProbability p
    · rw [Crossover_pair_fired _ _ _ _ _ _ _ _ _ hfire, hhalf]
      obtain ⟨h1, h2, h3, h4⟩ := Crossover_frame rest (g + 1) (p + 1)
        (crossoverStrategy s first second).2.2
      refine ⟨by simp [h1], by simp only [h2]; omega, by simp only [h3]; omega, ?_⟩
      intro m hm
      obtain ⟨m', rfl, hm'⟩ := hshift m hm
      simp only [List.getElem?_cons_succ]
      exact h4 m' hm'
    · rw [Crossover_pair_skipped _ _ _ _ _ _ _ _ _ hfire, hhalf]
      obtain ⟨h1, h2, h3, h4⟩ := Crossover_frame rest (g + 1) (p + 1) s
      refine ⟨by simp [h1], by simp only [h2]; omega, by simp only [h3]; omega, ?_⟩
      intro m hm
      obtain ⟨m', rfl, hm'⟩ := hshift m hm
      simp only [List.getElem?_cons_succ]
      exact h4 m' hm'

/-- Pair `t` is decided by generator sample `g + t` and probability value `p + t`; when
the sample is smaller, the pair is replaced by what the strategy returns in the state
left by the first `t` pairs, otherwise pair and strategy state are left as they are. -/
theorem Crossover_pairs :
    ∀ (chromosomes : List C) (g p : Nat) (s : S) (t : Nat),
      2 * t + 1 < chromosomes.length →
      ∃ first second, chromosomes[2 * t]? = some first ∧
        chromosomes[2 * t + 1]? = some second ∧
        (Crossover crossoverProbability crossoverStrategy generator
          (chromosomes.take (2 * t)) g p s).generator_calls = g + t ∧
        (Crossover crossoverProbability crossoverStrategy generator
          (chromosomes.take (2 * t)) g p s).probability_calls = p + t ∧
        if generator (g + t) < crossoverProbability (p + t) then
          (Crossover crossoverProbability crossoverStrategy generator chromosomes g p
            s).chromosomes[2 * t]? =
            some (crossoverStrategy
              (Crossover crossoverProbability crossoverStrategy generator
                (chromosomes.take (2 * t)) g p s).strategy_state first second).1 ∧
          (Crossover crossoverProbability crossoverStrategy generator chromosomes g p
            s).chromosomes[2 * t + 1]? =
            some (crossoverStrategy
              (Crossover crossoverProbability crossoverStrategy generator
                (chromosomes.take (2 * t)) g p s).strategy_state first second).2.1 ∧
          (Crossover crossoverProbability crossoverStrategy generator
            (chromosomes.take (2 * (t + 1))) g p s).strategy_state =
            (crossoverStrategy
              (Crossover crossoverProbability crossoverStrategy generator
                (chromosomes.take (2 * t)) g p s).strategy_state first second).2.2
        else
          (Crossover crossoverProbability crossoverStrategy generator chromosomes g p
            s).chromosomes[2 * t]? = some first ∧
          (Crossover crossoverProbability crossoverStrategy generator chromosomes g p
            s).chromosomes[2 * t + 1]? = some second ∧
          (Crossover crossoverProbability crossoverStrategy generator
            (chromosomes.take (2 * (t + 1))) g p s).strategy_state =
            (Crossover crossoverProbability crossoverStrategy generator
              (chromosomes.take (2 * t)) g p s).strategy_state
  | [], g, p, s, t, h => by simp at h
  | [last], g, p, s, t, h => by simp at h
  | first :: second :: rest, g, p, s, 0, _ => by
    refine ⟨first, second, by simp, by simp, ?_, ?_, ?_⟩
    · simp [Crossover_nil]
    · simp [Crossover_nil]
    · by_cases hfire : generator g < crossoverProbability p
      · simp only [Nat.add_zero, if_pos hfire, Nat.mul_zero, List.take_zero, Crossover_nil,
          Nat.zero_add, Nat.mul_one, List.take_succ_cons,
          Crossover_pair_fired _ _ _ _ _ _ _ _ _ hfire]
        simp
      · simp only [Nat.add_zero, if_neg hfire, Nat.mul_zero, List.take_zero, Crossover_nil,
          Nat.zero_add, Nat.mul_one, List.take_succ_cons,
          Crossover_pair_skipped _ _ _ _ _ _ _ _ _ hfire]
        simp
  | first :: second :: rest, g, p, s, t + 1, h => by
    have ht : 2 * t + 1 < rest.length := by
      simp only [List.length_cons] at h
      omega
    have e1 : 2 * (t + 1) = 2 * t + 1 + 1 := by omega
    have e2 : 2 * (t + 1 + 1) = 2 * (t + 1) + 1 + 1 := by omega
    have eg : g + 1 + t = g + (t + 1) := by omega
    have ep : p + 1 + t = p + (t + 1) := by omega
    by_cases hfire : generator g < crossoverProbability p
    · obtain ⟨a, b, ha, hb, hg, hp, hcase⟩ :=
        Crossover_pairs rest (g + 1) (p + 1) (crossoverStrategy s first second).2.2 t ht
      refine ⟨a, b, by rw [e1]; simpa using ha, by rw [e1]; simpa using hb, ?_, ?_, ?_⟩
      · rw [e1, List.take_succ_cons, List.take_succ_cons,
          Crossover_pair_fired _ _ _ _ _ _ _ _ _ hfire]
        simp only [hg]
        omega
      · rw [e1, List.take_succ_cons, List.take_succ_cons,
          Crossover_pair_fired _ _ _ _ _ _ _ _ _ hfire]
        simp only [hp]
        omega
      · rw [eg, ep] at hcase
        rw [e2, List.take_succ_cons, List.take_succ_cons]
        rw [e1, List.take_succ_cons, List.take_succ_cons]
        simp only [Crossover_pair_fired _ _ _ _ _ _ _ _ _ hfire, List.getElem?_cons_succ]
        exact hcase
    · obtain ⟨a, b, ha, hb, hg, hp, hcase⟩ :=
        Crossover_pairs rest (g + 1) (p + 1) s t ht
      refine ⟨a, b, by rw [e1]; simpa using ha, by rw [e1]; simpa using hb, ?_, ?_, ?_⟩
      · rw [e1, List.take_succ_cons, List.take_succ_cons,
          Crossover_pair_skipped _ _ _ _ _ _ _ _ _ hfire]
        simp only [hg]
        omega
      · rw [e1, List.take_succ_cons, List.take_succ_cons,
          Crossover_pair_skipped _ _ _ _ _ _ _ _ _ hfire]
        simp only [hp]
        omega
      · rw [eg, ep] at hcase
        rw [e2, List.take_succ_cons, List.take_succ_cons]
        rw [e1, List.take_succ_cons, List.take_succ_cons]
        simp only [Crossover_pair_skipped _ _ _ _ _ _ _ _ _ hfire, List.getElem?_cons_succ]
        exact hcase

/-- The strategy state at the end is the one left by the complete pairs. -/
theorem Crossover_final_state :
    ∀ (chromosomes : List C) (g p : Nat) (s : S),
      (Crossover crossoverProbability crossoverStrategy generator chromosomes g p
        s).strategy_state =
      (Crossover crossoverProbability crossoverStrategy generator
        (chromosomes.take (2 * (chromosomes.length / 2))) g p s).strategy_state
  | [], g, p, s => by simp [Crossover_nil]
  | [last], g, p, s => by simp [Crossover_nil, Crossover_single]
  | first :: second :: rest, g, p, s => by
    have hhalf : 2 * ((first :: second :: rest).length / 2) =
        2 * (rest.length / 2) + 1 + 1 := by
      simp only [List.length_cons]
      omega
    rw [hhalf, List.take_succ_cons, List.take_succ_cons]
    by_cases hfire : generator g < crossoverProbability p
    · simp only [Crossover_pair_fired _ _ _ _ _ _ _ _ _ hfire]
      exact Crossover_final_state rest (g + 1) (p + 1) _
    · simp only [Crossover_pair_skipped _ _ _ _ _ _ _ _ _ hfire]
      exact Crossover_final_state rest (g + 1) (p + 1) _

end

end evy

namespace EvoAlgos

namespace GeneticAlgorithm

/-- What a call of the loop of `mutate` that returns has done: the sizes, the numbers of
samples drawn and the fate of every chromosome. -/
theorem mutate_loop_spec (mp : ℚ) (constraints : List (ℚ × ℚ)) (probability : Nat → ℚ)
    (index : Nat → Nat) (number : Nat → ℚ) :
    ∀ (population out : List (List ℚ)) (i j i' j' : Nat),
      mutate_loop mp constraints probability index number population i j =
        some (out, i', j') →
      out.length = population.length ∧
      i' = i + population.length ∧
      j' = j + fired_count mp probability i population.length ∧
      ∀ t, t < population.length →
        ∃ chromosome, population[t]? = some chromosome ∧
          if probability (i + t) < mp then
            ∃ lower_bound upper_bound,
              constraints[index (j + fired_count mp probability i t)]? =
                some (lower_bound, upper_bound) ∧
              index (j + fired_count mp probability i t) < chromosome.length ∧
              out[t]? = some (chromosome.set (index (j + fired_count mp probability i t))
                (number (j + fired_count mp probability i t) *
                  (upper_bound - lower_bound) + lower_bound))
          else out[t]? = some chromosome
  | [], out, i, j, i', j', h => by
    simp only [mutate_loop, Option.some.injEq, Prod.mk.injEq] at h
    obtain ⟨h1, h2, h3⟩ := h
    subst h1 h2 h3
    simp [fired_count]
  | chromosome :: rest, out, i, j, i', j', h => by
    unfold mutate_loop at h
    by_cases hfire : probability i < mp
    · rw [if_pos hfire] at h
      cases hc : constraints[index j]? with
      | none => rw [hc] at h; simp at h
      | some c =>
        obtain ⟨lower_bound, upper_bound⟩ := c
        rw [hc] at h
        simp only at h
        by_cases hidx : index j < chromosome.length
        · rw [if_pos hidx] at h
          cases hrec : mutate_loop mp constraints probability index number rest (i + 1)
              (j + 1) with
          | none => rw [hrec] at h; simp at h
          | some r =>
            obtain ⟨out', i'', j''⟩ := r
            rw [hrec] at h
            simp only [Option.some.injEq, Prod.mk.injEq] at h
            obtain ⟨h1, h2, h3⟩ := h
            subst h1 h2 h3
            obtain ⟨hlen, hi, hj, hall⟩ :=
              mutate_loop_spec mp constraints probability index number rest out' (i + 1)
                (j + 1) _ _ hrec
            refine ⟨by simp [hlen], by rw [hi]; simp only [List.length_cons]; omega, ?_, ?_⟩
            · rw [hj]
              simp only [List.length_cons]
              rw [fired_count, if_pos hfire]
              omega
            · intro t ht
              cases t with
              | zero =>
                refine ⟨chromosome, by simp, ?_⟩
                rw [Nat.add_zero, if_pos hfire]
                exact ⟨lower_bound, upper_bound, by simpa [fired_count] using hc,
                  by simpa [fired_count] using hidx, by simp [fired_count]⟩
              | succ t =>
                obtain ⟨c, hc', hcase⟩ := hall t (by simpa using ht)
                have e2 : i + 1 + t = i + (t + 1) := by omega
                have e3 : j + 1 + fired_count mp probability (i + 1) t =
                    j + fired_count mp probability i (t + 1) := by
                  rw [fired_count, if_pos hfire]
                  omega
                rw [e2, e3] at hcase
                exact ⟨c, by simpa using hc', by simpa using hcase⟩
        · rw [if_neg hidx] at h
          simp at h
    · rw [if_neg hfire] at h
      cases hrec : mutate_loop mp constraints probability index number rest (i + 1) j with
      | none => rw [hrec] at h; simp at h
      | some r =>
        obtain ⟨out', i'', j''⟩ := r
        rw [hrec] at h
        simp only [Option.some.injEq, Prod.mk.injEq] at h
        obtain ⟨h1, h2, h3⟩ := h
        subst h1 h2 h3
        obtain ⟨hlen, hi, hj, hall⟩ :=
          mutate_loop_spec mp constraints probability index number rest out' (i + 1) j _ _
            hrec
        refine ⟨by simp [hlen], by rw [hi]; simp only [List.length_cons]; omega, ?_, ?_⟩
        · rw [hj]
          simp only [List.length_cons]
          rw [fired_count, if_neg hfire]
          omega
        · intro t ht
          cases t with
          | zero =>
            refine ⟨chromosome, by simp, ?_⟩
            rw [Nat.add_zero, if_neg hfire]
            simp
          | succ t =>
            obtain ⟨c, hc', hcase⟩ := hall t (by simpa using ht)
            have e2 : i + 1 + t = i + (t + 1) := by omega
            have e3 : j + fired_count mp probability (i + 1) t =
                j + fired_count mp probability i (t + 1) := by
              rw [fired_count, if_neg hfire]
              omega
            rw [e2, e3] at hcase
            exact ⟨c, by simpa using hc', by simpa using hcase⟩

/-- The loop of `mutate` returns when every mutation index that can be drawn is a
position of every chromosome and of the constraints. -/
theorem mutate_loop_defined (mp : ℚ) (constraints : List (ℚ × ℚ)) (probability : Nat → ℚ)
    (index : Nat → Nat) (number : Nat → ℚ) (n : Nat) (hindex : ∀ j, index j < n)
    (hconstraints : n ≤ constraints.length) :
    ∀ (population : List (List ℚ)) (i j : Nat),
      (∀ chromosome ∈ population, chromosome.length = n) →
      ∃ out i' j',
        mutate_loop mp constraints probability index number population i j =
          some (out, i', j')
  | [], i, j, _ => ⟨[], i, j, rfl⟩
  | chromosome :: rest, i, j, hlen => by
    have h1 : chromosome.length = n := hlen chromosome (by simp)
    have hrest : ∀ c ∈ rest, c.length = n := fun c hc => hlen c (by simp [hc])
    unfold mutate_loop
    by_cases hfire : probability i < mp
    · rw [if_pos hfire]
      obtain ⟨c, hc⟩ := getElem?_defined (l := constraints)
        (i := index j) (lt_of_lt_of_le (hindex j) hconstraints)
      obtain ⟨out, i', j', hrec⟩ :=
        mutate_loop_defined mp constraints probability index number n hindex hconstraints
          rest (i + 1) (j + 1) hrest
      rw [hc]
      simp only
      rw [if_pos (by rw [h1]; exact hindex j), hrec]
      exact ⟨_, _, _, rfl⟩
    · rw [if_neg hfire]
      obtain ⟨out, i', j', hrec⟩ :=
        mutate_loop_defined mp constraints probability index number n hindex hconstraints
          rest (i + 1) j hrest
      rw [hrec]
      exact ⟨_, _, _, rfl⟩

/-- On a non-empty population of chromosomes of `num_parameters` genes, with mutation
indices in `[0, num_parameters - 1]`, `mutate` returns; a chromosome whose sample is below the mutation
probability has the gene at its mutation index overwritten, every other chromosome is
copied. -/
theorem mutate_spec (ga : GeneticAlgorithm) (population : List (List ℚ))
    (problem : OptimizationProblem) (probability : Nat → ℚ) (index : Nat → Nat)
    (number : Nat → ℚ) (hne : population ≠ [])
    (hlen : ∀ chromosome ∈ population, chromosome.length = problem.num_parameters)
    (hindex : ∀ j, index j < problem.num_parameters) :
    ∃ out, ga.mutate population problem probability index number = some out ∧
      mutate_loop ga._mutation_probability problem.constraints probability index number
        population 0 0 =
        some (out, population.length,
          fired_count ga._mutation_probability probability 0 population.length) ∧
      out.length = population.length ∧
      (∀ chromosome ∈ out, chromosome.length = problem.num_parameters) ∧
      ∀ t, t < population.length →
        ∃ chromosome, population[t]? = some chromosome ∧
          if probability t < ga._mutation_probability then
            ∃ lower_bound upper_bound,
              problem.constraints[index
                (fired_count ga._mutation_probability probability 0 t)]? =
                some (lower_bound, upper_bound) ∧
              out[t]? = some (chromosome.set
                (index (fired_count ga._mutation_probability probability 0 t))
                (number (fired_count ga._mutation_probability probability 0 t) *
                  (upper_bound - lower_bound) + lower_bound))
          else out[t]? = some chromosome := by
  obtain ⟨out, i', j', hloop⟩ :=
    mutate_loop_defined ga._mutation_probability problem.constraints probability index number
      problem.num_parameters hindex (le_of_eq problem.constraints_length.symm)
      population 0 0 hlen
  obtain ⟨hlength, hi, hj, hall⟩ := mutate_loop_spec _ _ _ _ _ _ _ _ _ _ _ hloop
  rw [Nat.zero_add] at hi hj
  subst hi hj
  have hall' : ∀ t, t < population.length →
      ∃ chromosome, population[t]? = some chromosome ∧
        if probability t < ga._mutation_probability then
          ∃ lower_bound upper_bound,
            problem.constraints[index
              (fired_count ga._mutation_probability probability 0 t)]? =
              some (lower_bound, upper_bound) ∧
            out[t]? = some (chromosome.set
              (index (fired_count ga._mutation_probability probability 0 t))
              (number (fired_count ga._mutation_probability probability 0 t) *
                (upper_bound - lower_bound) + lower_bound))
        else out[t]? = some chromosome := by
    intro t ht
    obtain ⟨c, hc, hcase⟩ := hall t ht
    refine ⟨c, hc, ?_⟩
    simp only [Nat.zero_add] at hcase
    by_cases hfire : probability t < ga._mutation_probability
    · rw [if_pos hfire] at hcase ⊢
      obtain ⟨lo, hi, h1, _, h3⟩ := hcase
      exact ⟨lo, hi, h1, h3⟩
    · rw [if_neg hfire] at hcase ⊢
      exact hcase
  refine ⟨out, ?_, hloop, hlength, ?_, hall'⟩
  · cases population with
    | nil => exact absurd rfl hne
    | cons first rest =>
      have hfirst : 1 ≤ first.length := by
        rw [hlen first (by simp)]
        exact Nat.lt_of_le_of_lt (Nat.zero_le _) (hindex 0)
      rw [mutate_eq_loop ga first rest problem probability index number hfirst, hloop]
  · intro chromosome hc
    obtain ⟨t, ht⟩ := List.getElem?_of_mem hc
    have htlt : t < population.length := by
      rw [← hlength]
      exact lt_length_of_getElem? ht
    obtain ⟨c, hc', hcase⟩ := hall' t htlt
    have hcl : c.length = problem.num_parameters := hlen c (List.getElem?_mem hc')
    by_cases hfire : probability t < ga._mutation_probability
    · rw [if_pos hfire] at hcase
      obtain ⟨lo, hi, _, h3⟩ := hcase
      rw [ht] at h3
      rw [Option.some.inj h3, List.length_set, hcl]
    · rw [if_neg hfire, ht] at hcase
      rw [Option.some.inj hcase, hcl]

/-! ## Evaluation and initialisation -/

/-- The loop of `evaluate` returns when the score table is long enough; it overwrites the
entries `i`, ..., `i + size - 1` with the scores of the chromosomes and keeps the
others. -/
theorem evaluate_loop_spec (objective_function : List ℚ → ℚ) :
    ∀ (population : List (List ℚ)) (i : Nat) (scores : List ℚ),
      i + population.length ≤ scores.length →
      ∃ out, evaluate_loop objective_function population i scores = some out ∧
        out.length = scores.length ∧
        ∀ m : Nat, out[m]? =
          if i ≤ m ∧ m < i + population.length then
            (population[m - i]?).map objective_function
          else scores[m]?
  | [], i, scores, _ => by
    refine ⟨scores, rfl, rfl, ?_⟩
    intro m
    rw [if_neg]
    simp only [List.length_nil]
    omega
  | chromosome :: rest, i, scores, h => by
    simp only [List.length_cons] at h
    obtain ⟨out, hout, hlen, hget⟩ :=
      evaluate_loop_spec objective_function rest (i + 1)
        (scores.set i (objective_function chromosome))
        (by rw [List.length_set]; omega)
    refine ⟨out, ?_, by rw [hlen, List.length_set], ?_⟩
    · unfold evaluate_loop
      rw [if_pos (by omega)]
      exact hout
    · intro m
      rw [hget m]
      simp only [List.length_cons]
      by_cases h1 : i + 1 ≤ m ∧ m < i + 1 + rest.length
      · rw [if_pos h1, if_pos (by omega)]
        obtain ⟨d, hd⟩ : ∃ d, m - i = d + 1 := ⟨m - i - 1, by omega⟩
        have hd' : m - (i + 1) = d := by omega
        rw [hd, hd', List.getElem?_cons_succ]
      · rw [if_neg h1]
        by_cases h2 : m = i
        · subst h2
          rw [if_pos (by omega), Nat.sub_self, List.getElem?_cons_zero, Option.map_some']
          rw [List.getElem?_set_self (by omega)]
        · rw [if_neg (by omega), List.getElem?_set_ne (Ne.symm h2)]

/-- A sample of `std::uniform_real_distribution<>(lower, upper)` lies in
`[lower, upper]`. -/
theorem uniform_real_distribution_range (lower upper u : ℚ) (hbound : lower ≤ upper)
    (h0 : 0 ≤ u) (h1 : u < 1) :
    lower ≤ uniform_real_distribution lower upper u ∧
      uniform_real_distribution lower upper u ≤ upper := by
  unfold uniform_real_distribution
  have hd : 0 ≤ upper - lower := sub_nonneg.mpr hbound
  constructor
  · nlinarith [mul_nonneg h0 hd]
  · nlinarith [mul_nonneg (le_of_lt (sub_pos.mpr h1)) hd]

/-- The resampled gene of `mutate` lies in `[lower_bound, upper_bound]`. -/
theorem resampled_gene_range (lower_bound upper_bound number : ℚ)
    (hbound : lower_bound ≤ upper_bound) (h0 : 0 ≤ number) (h1 : number < 1) :
    lower_bound ≤ number * (upper_bound - lower_bound) + lower_bound ∧
      number * (upper_bound - lower_bound) + lower_bound ≤ upper_bound := by
  have hd : 0 ≤ upper_bound - lower_bound := sub_nonneg.mpr hbound
  constructor
  · nlinarith [mul_nonneg h0 hd]
  · nlinarith [mul_nonneg (le_of_lt (sub_pos.mpr h1)) hd]

/-- Every chromosome of the initial population has `num_parameters` genes, gene
`parameter_index` being the sample drawn from the bound of that position. -/
theorem initial_chromosome_spec (pop_number : Nat) (problem : OptimizationProblem)
    (samples : Nat → ℚ) (population_index : Nat) :
    ∃ chromosome,
      initial_chromosome pop_number problem samples population_index = some chromosome ∧
      chromosome.length = problem.num_parameters ∧
      ∀ (parameter_index : Nat) (x : ℚ) (c : ℚ × ℚ),
        chromosome[parameter_index]? = some x →
        problem.constraints[parameter_index]? = some c →
        x = uniform_real_distribution c.1 c.2
          (samples (parameter_index * pop_number + population_index)) := by
  obtain ⟨chromosome, hch⟩ := mapM_option_defined
    (fun parameter_index =>
      match problem.constraints[parameter_index]? with
      | some c =>
        some (uniform_real_distribution c.1 c.2
          (samples (parameter_index * pop_number + population_index)))
      | none => none)
    (List.range problem.num_parameters)
    (by
      intro parameter_index hp
      obtain ⟨c, hc⟩ := getElem?_defined (l := problem.constraints) (i := parameter_index)
        (by rw [problem.constraints_length]; exact List.mem_range.mp hp)
      exact ⟨uniform_real_distribution c.1 c.2
        (samples (parameter_index * pop_number + population_index)), by simp only [hc]⟩)
  have hrel := (mapM_option_iff _ _ _).mp hch
  refine ⟨chromosome, hch, by rw [← hrel.length_eq, List.length_range], ?_⟩
  intro parameter_index x c hx hc
  obtain ⟨q, hq, hval⟩ := forall₂_getElem?_right hrel parameter_index x hx
  have hqe : q = parameter_index := by
    have hlt := lt_length_of_getElem? hq
    rw [List.length_range] at hlt
    rw [List.getElem?_range hlt] at hq
    exact (Option.some.inj hq).symm
  subst hqe
  simp only [hc, Option.some.injEq] at hval
  exact hval.symm

/-- `generate_initial_solutions` returns `_pop_number` chromosomes of `num_parameters`
genes, feasible when the samples lie in `[0,1)` and no bound is empty. -/
theorem generate_initial_solutions_spec (ga : GeneticAlgorithm)
    (problem : OptimizationProblem) (samples : Nat → ℚ) :
    ∃ initial_solutions,
      ga.generate_initial_solutions problem samples = some initial_solutions ∧
      initial_solutions.length = ga._pop_number ∧
      (∀ chromosome ∈ initial_solutions, chromosome.length = problem.num_parameters) ∧
      ((∀ c ∈ problem.constraints, c.1 ≤ c.2) → (∀ n, 0 ≤ samples n ∧ samples n < 1) →
        ∀ chromosome ∈ initial_solutions, Feasible problem.constraints chromosome) := by
  obtain ⟨initial_solutions, hinit⟩ := mapM_option_defined
    (initial_chromosome ga._pop_number problem samples) (List.range ga._pop_number)
    (fun i _ => by
      obtain ⟨c, hc, _⟩ := initial_chromosome_spec ga._pop_number problem samples i
      exact ⟨c, hc⟩)
  have hrel := (mapM_option_iff _ _ _).mp hinit
  have hchrom : ∀ chromosome ∈ initial_solutions, ∃ i,
      initial_chromosome ga._pop_number problem samples i = some chromosome := by
    intro chromosome hc
    obtain ⟨m, hm⟩ := List.getElem?_of_mem hc
    obtain ⟨i, _, hi⟩ := forall₂_getElem?_right hrel m chromosome hm
    exact ⟨i, hi⟩
  refine ⟨initial_solutions, hinit, by rw [← hrel.length_eq, List.length_range], ?_, ?_⟩
  · intro chromosome hc
    obtain ⟨i, hi⟩ := hchrom chromosome hc
    obtain ⟨c', hc', hlen, _⟩ := initial_chromosome_spec ga._pop_number problem samples i
    rw [hi] at hc'
    rw [Option.some.inj hc', hlen]
  · intro hbounds hsamples chromosome hc
    obtain ⟨i, hi⟩ := hchrom chromosome hc
    obtain ⟨c', hc', hlen, hval⟩ := initial_chromosome_spec ga._pop_number problem samples i
    rw [hi] at hc'
    have he := Option.some.inj hc'
    subst he
    refine ⟨by rw [hlen, problem.constraints_length], ?_⟩
    intro g x c hx hcg
    rw [hval g x c hx hcg]
    exact uniform_real_distribution_range c.1 c.2 _
      (hbounds c (List.getElem?_mem hcg)) (hsamples _).1 (hsamples _).2

/-- On a score table as long as the population, `evaluate` replaces every entry by the
score of the chromosome at the same position. -/
theorem evaluate_spec (ga : GeneticAlgorithm) (solution_population : List (List ℚ))
    (problem : OptimizationProblem)
    (hscores : ga._scores.length = solution_population.length) :
    ga.evaluate solution_population problem =
      some { ga with _scores := solution_population.map problem.objective_function } := by
  obtain ⟨out, hout, hlen, hget⟩ :=
    evaluate_loop_spec problem.objective_function solution_population 0 ga._scores
      (by omega)
  have hmap : out = solution_population.map problem.objective_function := by
    apply List.ext_getElem?
    intro m
    rw [hget m, List.getElem?_map]
    by_cases hm : m < solution_population.length
    · rw [if_pos ⟨Nat.zero_le m, by omega⟩, Nat.sub_zero]
    · rw [if_neg (by omega), List.getElem?_eq_none (by omega),
        List.getElem?_eq_none (by omega)]
      rfl
  unfold evaluate
  rw [hout, hmap]

/-- The gene of a feasible population that a gene of `out` at the same position `g` is
equal to, for every chromosome of the output of `crossover`. -/
theorem crossover_gene_origin (ga : GeneticAlgorithm) (population : List (List ℚ))
    (probability : Nat → ℚ) (point : Nat → Nat) (n : Nat)
    (hne : population ≠ [])
    (hlen : ∀ chromosome ∈ population, chromosome.length = n)
    (hpoint : ∀ j, point j < n) (out : List (List ℚ))
    (hout : ga.crossover population probability point = some out) :
    ∀ chromosome ∈ out, ∀ (g : Nat) (x : ℚ), chromosome[g]? = some x →
      ∃ origin ∈ population, origin[g]? = some x := by
  obtain ⟨out', hout', _, hlength, _, hpairs, hrest⟩ :=
    crossover_spec ga population probability point n hne hlen hpoint
  rw [hout] at hout'
  have he := Option.some.inj hout'
  subst he
  intro chromosome hc g x hx
  obtain ⟨m, hm⟩ := List.getElem?_of_mem hc
  have hmlt : m < population.length := by
    rw [← hlength]
    exact lt_length_of_getElem? hm
  by_cases hlate : 2 * (population.length / 2) ≤ m
  · rw [hrest m hlate] at hm
    exact ⟨chromosome, List.getElem?_mem hm, hx⟩
  · have ht : 2 * (m / 2) + 1 < population.length := by omega
    obtain ⟨a, ha⟩ := getElem?_defined (l := population) (i := 2 * (m / 2)) (by omega)
    obtain ⟨b, hb⟩ := getElem?_defined (l := population) (i := 2 * (m / 2) + 1) ht
    have hg := hpairs (m / 2) ht g
    simp only [gene, ha, hb] at hg
    rcases Nat.mod_two_eq_zero_or_one m with hpar | hpar
    · have e : 2 * (m / 2) = m := by omega
      have h1 := hg.1
      rw [e, hm] at h1
      simp only at h1
      rw [hx] at h1
      by_cases hcond : probability (m / 2) < ga._crossover_probability ∧
          g ≤ point (fired_count ga._crossover_probability probability 0 (m / 2))
      · rw [if_pos hcond] at h1
        exact ⟨b, List.getElem?_mem hb, h1.symm⟩
      · rw [if_neg hcond] at h1
        exact ⟨a, List.getElem?_mem ha, h1.symm⟩
    · have e : 2 * (m / 2) + 1 = m := by omega
      have h1 := hg.2
      rw [e, hm] at h1
      simp only at h1
      rw [hx] at h1
      by_cases hcond : probability (m / 2) < ga._crossover_probability ∧
          g ≤ point (fired_count ga._crossover_probability probability 0 (m / 2))
      · rw [if_pos hcond] at h1
        exact ⟨a, List.getElem?_mem ha, h1.symm⟩
      · rw [if_neg hcond] at h1
        exact ⟨b, List.getElem?_mem hb, h1.symm⟩

/-- `crossover` maps a feasible population to a feasible population. -/
theorem crossover_feasible (ga : GeneticAlgorithm) (population : List (List ℚ))
    (probability : Nat → ℚ) (point : Nat → Nat) (constraints : List (ℚ × ℚ))
    (hne : population ≠ [])
    (hfeasible : ∀ chromosome ∈ population, Feasible constraints chromosome)
    (hpoint : ∀ j, point j < constraints.length) (out : List (List ℚ))
    (hout : ga.crossover population probability point = some out) :
    ∀ chromosome ∈ out, Feasible constraints chromosome := by
  have hlen : ∀ chromosome ∈ population, chromosome.length = constraints.length :=
    fun c hc => (hfeasible c hc).1
  obtain ⟨out', hout', _, _, hlens, _, _⟩ :=
    crossover_spec ga population probability point constraints.length hne hlen hpoint
  rw [hout] at hout'
  have he := Option.some.inj hout'
  subst he
  intro chromosome hc
  refine ⟨hlens chromosome hc, ?_⟩
  intro g x c hx hcg
  obtain ⟨origin, horigin, hgene⟩ :=
    crossover_gene_origin ga population probability point constraints.length hne hlen
      hpoint out hout chromosome hc g x hx
  exact (hfeasible origin horigin).2 g x c hgene hcg

/-- `mutate` maps a feasible population to a feasible population when no bound is empty
and the resample factors lie in `[0,1)`. -/
theorem mutate_feasible (ga : GeneticAlgorithm) (population : List (List ℚ))
    (problem : OptimizationProblem) (probability : Nat → ℚ) (index : Nat → Nat)
    (number : Nat → ℚ) (hne : population ≠ [])
    (hbounds : ∀ c ∈ problem.constraints, c.1 ≤ c.2)
    (hfeasible : ∀ chromosome ∈ population, Feasible problem.constraints chromosome)
    (hindex : ∀ j, index j < problem.num_parameters)
    (hnumber : ∀ j, 0 ≤ number j ∧ number j < 1) (out : List (List ℚ))
    (hout : ga.mutate population problem probability index number = some out) :
    ∀ chromosome ∈ out, Feasible problem.constraints chromosome := by
  have hlen : ∀ chromosome ∈ population, chromosome.length = problem.num_parameters :=
    fun c hc => by rw [(hfeasible c hc).1, problem.constraints_length]
  obtain ⟨out', hout', _, hlength, hlens, hall⟩ :=
    mutate_spec ga population problem probability index number hne hlen hindex
  rw [hout] at hout'
  have he := Option.some.inj hout'
  subst he
  intro chromosome hc
  refine ⟨by rw [hlens chromosome hc, problem.constraints_length], ?_⟩
  intro g x c hx hcg
  obtain ⟨t, ht⟩ := List.getElem?_of_mem hc
  have htlt : t < population.length := by
    rw [← hlength]
    exact lt_length_of_getElem? ht
  obtain ⟨original, horiginal, hcase⟩ := hall t htlt
  have hfo := hfeasible original (List.getElem?_mem horiginal)
  by_cases hfire : probability t < ga._mutation_probability
  · rw [if_pos hfire] at hcase
    obtain ⟨lower_bound, upper_bound, hcons, hset⟩ := hcase
    rw [ht] at hset
    have he := Option.some.inj hset
    subst he
    by_cases hg : index (fired_count ga._mutation_probability probability 0 t) = g
    · rw [hg] at hcons hx
      rw [hcg] at hcons
      have hc' := Option.some.inj hcons
      subst hc'
      have hglt : g < original.length := by
        have := lt_length_of_getElem? hx
        rwa [List.length_set] at this
      rw [List.getElem?_set_self hglt] at hx
      have hx' := Option.some.inj hx
      subst hx'
      exact resampled_gene_range lower_bound upper_bound _
        (hbounds _ (List.getElem?_mem hcg)) (hnumber _).1 (hnumber _).2
    · rw [List.getElem?_set_ne hg] at hx
      exact hfo.2 g x c hx hcg
  · rw [if_neg hfire, ht] at hcase
    rw [Option.some.inj hcase] at hx
    exact hfo.2 g x c hx hcg

/-! ## The loop of `run` -/

/-- One iteration of the loop of `run` on an object whose population and score table
have `_pop_number` entries: every step returns, every intermediate population has
`_pop_number` chromosomes of `num_parameters` genes, and feasibility is passed on from
step to step. -/
theorem generation_spec (st : GeneticAlgorithm) (problem : OptimizationProblem)
    (d : GenerationDraws) (hpop : 1 ≤ st._pop_number)
    (hk0 : 0 ≤ st._k_tournament_selection)
    (hk : st._k_tournament_selection + 1 ≤ (st._pop_number : Int))
    (hsize : st._current_population.length = st._pop_number)
    (hlen : ∀ chromosome ∈ st._current_population,
      chromosome.length = problem.num_parameters)
    (hscores : st._scores.length = st._pop_number)
    (hd : d.Valid st._pop_number problem.num_parameters) :
    ∃ (evaluated : GeneticAlgorithm) (new_parents new_population mutated : List (List ℚ)),
      st.evaluate st._current_population problem = some evaluated ∧
      evaluated =
        { st with _scores := st._current_population.map problem.objective_function } ∧
      evaluated.select_parents d.shuffle = some new_parents ∧
      evaluated.crossover new_parents d.crossover_probability d.crossover_point =
        some new_population ∧
      evaluated.mutate new_population problem d.mutation_probability d.mutation_index
        d.mutation_number = some mutated ∧
      st.generation problem d = some { evaluated with _current_population := mutated } ∧
      new_parents.length = st._pop_number ∧
      new_population.length = st._pop_number ∧
      mutated.length = st._pop_number ∧
      (∀ chromosome ∈ new_parents, chromosome.length = problem.num_parameters) ∧
      (∀ chromosome ∈ new_population, chromosome.length = problem.num_parameters) ∧
      (∀ chromosome ∈ mutated, chromosome.length = problem.num_parameters) ∧
      ((∀ c ∈ problem.constraints, c.1 ≤ c.2) →
        (∀ chromosome ∈ st._current_population, Feasible problem.constraints chromosome) →
        (∀ chromosome ∈ new_parents, Feasible problem.constraints chromosome) ∧
        (∀ chromosome ∈ new_population, Feasible problem.constraints chromosome) ∧
        (∀ chromosome ∈ mutated, Feasible problem.constraints chromosome)) := by
  have heval := evaluate_spec st st._current_population problem (by rw [hscores, hsize])
  obtain ⟨new_parents, hsel, hplen, _, hpmem⟩ :=
    select_parents_spec
      { st with _scores := st._current_population.map problem.objective_function }
      d.shuffle hsize (by simp [hsize]) hk0 hk hd.shuffle_perm
  have hpne : new_parents ≠ [] := by
    intro h
    rw [h] at hplen
    simp only [List.length_nil] at hplen
    omega
  have hplens : ∀ chromosome ∈ new_parents, chromosome.length = problem.num_parameters :=
    fun c hc => hlen c (hpmem c hc)
  obtain ⟨new_population, hcross, _, hclen, hclens, _, _⟩ :=
    crossover_spec
      { st with _scores := st._current_population.map problem.objective_function }
      new_parents d.crossover_probability d.crossover_point problem.num_parameters hpne
      hplens hd.crossover_point_range
  have hcne : new_population ≠ [] := by
    intro h
    rw [h] at hclen
    exact hpne (List.length_eq_zero.mp hclen.symm)
  obtain ⟨mutated, hmut, _, hmlen, hmlens, _⟩ :=
    mutate_spec
      { st with _scores := st._current_population.map problem.objective_function }
      new_population problem d.mutation_probability d.mutation_index d.mutation_number
      hcne hclens hd.mutation_index_range
  refine ⟨_, new_parents, new_population, mutated, heval, rfl, hsel, hcross, hmut, ?_,
    hplen, by rw [hclen, hplen], by rw [hmlen, hclen, hplen], hplens, hclens, hmlens, ?_⟩
  · unfold generation
    rw [heval]
    simp only
    rw [hsel]
    simp only
    rw [hcross]
    simp only
    rw [hmut]
  · intro hbounds hfeasible
    have hpf : ∀ chromosome ∈ new_parents, Feasible problem.constraints chromosome :=
      fun c hc => hfeasible c (hpmem c hc)
    have hcf : ∀ chromosome ∈ new_population, Feasible problem.constraints chromosome :=
      crossover_feasible _ new_parents d.crossover_probability d.crossover_point
        problem.constraints hpne hpf
        (by rw [problem.constraints_length]; exact hd.crossover_point_range)
        new_population hcross
    exact ⟨hpf, hcf,
      mutate_feasible _ new_population problem d.mutation_probability d.mutation_index
        d.mutation_number hcne hbounds hcf hd.mutation_index_range
        hd.mutation_number_range mutated hmut⟩

/-- The object exists after the initialisation and after every iteration of the loop of
`run`; it keeps its configuration, its population has `_pop_number` chromosomes of
`num_parameters` genes, its score table `_pop_number` entries, and its population is
feasible when no bound is empty. -/
theorem state_after_spec (ga : GeneticAlgorithm) (problem : OptimizationProblem)
    (draws : RunDraws) (hpop : 1 ≤ ga._pop_number)
    (hk0 : 0 ≤ ga._k_tournament_selection)
    (hk : ga._k_tournament_selection + 1 ≤ (ga._pop_number : Int))
    (hscores : ga._scores.length = ga._pop_number)
    (hdraws : draws.Valid ga._pop_number problem.num_parameters) :
    ∀ g, ∃ st, state_after ga problem draws g = some st ∧
      st._pop_number = ga._pop_number ∧
      st._k_tournament_selection = ga._k_tournament_selection ∧
      st._max_iterations = ga._max_iterations ∧
      st._crossover_probability = ga._crossover_probability ∧
      st._mutation_probability = ga._mutation_probability ∧
      st._current_population.length = ga._pop_number ∧
      (∀ chromosome ∈ st._current_population,
        chromosome.length = problem.num_parameters) ∧
      st._scores.length = ga._pop_number ∧
      ((∀ c ∈ problem.constraints, c.1 ≤ c.2) →
        ∀ chromosome ∈ st._current_population, Feasible problem.constraints chromosome)
  | 0 => by
    obtain ⟨initial_solutions, hinit, hlen, hlens, hfeasible⟩ :=
      generate_initial_solutions_spec ga problem draws.initial
    refine ⟨{ ga with _current_population := initial_solutions }, ?_, rfl, rfl, rfl, rfl,
      rfl, hlen, hlens, hscores, fun hb => hfeasible hb hdraws.initial_range⟩
    unfold state_after
    rw [hinit]
  | g + 1 => by
    obtain ⟨st, hst, h1, h2, h3, h4, h5, hsize, hlens, hsc, hfeasible⟩ :=
      state_after_spec ga problem draws hpop hk0 hk hscores hdraws g
    obtain ⟨evaluated, new_parents, new_population, mutated, _, hev, _, _, _, hgen, _, _,
        hmlen, _, _, hmlens, hfeas⟩ :=
      generation_spec st problem (draws.generation g) (by rw [h1]; exact hpop)
        (by rw [h2]; exact hk0) (by rw [h1, h2]; exact hk) (by rw [hsize, h1]) hlens
        (by rw [hsc, h1]) (by rw [h1]; exact hdraws.generation_valid g)
    refine ⟨{ evaluated with _current_population := mutated }, ?_, ?_, ?_, ?_, ?_, ?_, ?_,
      hmlens, ?_, ?_⟩
    · unfold state_after
      rw [hst]
      exact hgen
    · rw [hev]; exact h1
    · rw [hev]; exact h2
    · rw [hev]; exact h3
    · rw [hev]; exact h4
    · rw [hev]; exact h5
    · rw [hmlen, h1]
    · rw [hev]
      simp only [List.length_map]
      exact hsize
    · intro hb
      exact (hfeas hb (hfeasible hb)).2.2

end GeneticAlgorithm

end EvoAlgos

/-! ## The verified claims -/

namespace EvoAlgos

namespace GeneticAlgorithm

/-- C2: for a non-empty list of sampled indices that are all valid positions of the score
table, `_tournament_selection` returns the entry of the list at the first list position
whose score is greatest: the winner is a member of the list and a valid position of the
score table, its score is at least the score of every listed index, and every index
listed before it has a strictly smaller score. -/
theorem tournament_selection_first_greatest (ga : GeneticAlgorithm)
    (chromosome_indices : List Nat) (hne : chromosome_indices ≠ [])
    (hvalid : ∀ x ∈ chromosome_indices, x < ga._scores.length) :
    ∃ (position winner : Nat) (best : ℚ),
      ga._tournament_selection chromosome_indices = some winner ∧
      chromosome_indices[position]? = some winner ∧
      winner ∈ chromosome_indices ∧ winner < ga._scores.length ∧
      ga._scores[winner]? = some best ∧
      (∀ x ∈ chromosome_indices, ∀ s, ga._scores[x]? = some s → s ≤ best) ∧
      (∀ (q x : Nat) (s : ℚ), q < position → chromosome_indices[q]? = some x →
        ga._scores[x]? = some s → s < best) :=
  tournament_selection_spec ga chromosome_indices hne hvalid

/-- The tournament among the indices `2, 3, 1` of the evaluated scenario population. -/
theorem tournament_selection_first_greatest_witness :
    ∃ (position winner : Nat) (best : ℚ),
      scenario_evaluated._tournament_selection [2, 3, 1] = some winner ∧
      [2, 3, 1][position]? = some winner ∧
      winner ∈ [2, 3, 1] ∧ winner < scenario_evaluated._scores.length ∧
      scenario_evaluated._scores[winner]? = some best ∧
      (∀ x ∈ [2, 3, 1], ∀ s, scenario_evaluated._scores[x]? = some s → s ≤ best) ∧
      (∀ (q x : Nat) (s : ℚ), q < position → [2, 3, 1][q]? = some x →
        scenario_evaluated._scores[x]? = some s → s < best) :=
  tournament_selection_first_greatest scenario_evaluated [2, 3, 1] (by decide) (by decide)

/-- C10: for `0 ≤ k` and `k + 1 ≤ pop_number` and every permutation produced by the
shuffle, `_pick_random_chromosome(k)` returns the first `k + 1` entries of the shuffled
identity vector: exactly `k + 1` pairwise distinct indices, each in `[0, pop_number)`. -/
theorem pick_random_chromosome_distinct (ga : GeneticAlgorithm) (k : Int)
    (shuffle : List Nat → List Nat) (hk0 : 0 ≤ k) (hk : k + 1 ≤ (ga._pop_number : Int))
    (hperm : (shuffle (List.range ga._pop_number)).Perm (List.range ga._pop_number)) :
    ∃ run_indices, ga._pick_random_chromosome k shuffle = some run_indices ∧
      run_indices = (shuffle (List.range ga._pop_number)).take (k + 1).toNat ∧
      (run_indices.length : Int) = k + 1 ∧ run_indices.Nodup ∧
      ∀ x ∈ run_indices, x < ga._pop_number :=
  pick_random_chromosome_spec ga k shuffle hk0 hk hperm

/-- The sample of three indices drawn from the scenario population of four when the
shuffle reverses the identity vector. -/
theorem pick_random_chromosome_distinct_witness :
    ∃ run_indices, scenario_ga._pick_random_chromosome 2 List.reverse = some run_indices ∧
      run_indices =
        (List.reverse (List.range scenario_ga._pop_number)).take ((2 : Int) + 1).toNat ∧
      (run_indices.length : Int) = 2 + 1 ∧ run_indices.Nodup ∧
      ∀ x ∈ run_indices, x < scenario_ga._pop_number :=
  pick_random_chromosome_distinct scenario_ga 2 List.reverse (by decide) (by decide)
    (by decide)

/-- C9: for a current population and a score table of `pop_number` entries, `0 ≤ k` and
`k + 1 ≤ pop_number`, and every outcome of the shuffles, `select_parents` returns exactly
`pop_number` parents; slot `i` holds the current chromosome at the index that won the
tournament among the indices sampled for slot `i`, so every parent is a chromosome of the
current population. -/
theorem select_parents_fills_slots (ga : GeneticAlgorithm)
    (shuffle : Nat → List Nat → List Nat)
    (hpop : ga._current_population.length = ga._pop_number)
    (hscores : ga._scores.length = ga._pop_number)
    (hk0 : 0 ≤ ga._k_tournament_selection)
    (hk : ga._k_tournament_selection + 1 ≤ (ga._pop_number : Int))
    (hperm : ∀ i, i < ga._pop_number →
      (shuffle i (List.range ga._pop_number)).Perm (List.range ga._pop_number)) :
    ∃ parents, ga.select_parents shuffle = some parents ∧
      parents.length = ga._pop_number ∧
      (∀ i, i < ga._pop_number → ∃ (run_indices : List Nat) (winner : Nat)
          (chromosome : List ℚ),
        ga._pick_random_chromosome ga._k_tournament_selection (shuffle i) =
          some run_indices ∧
        ga._tournament_selection run_indices = some winner ∧
        winner < ga._pop_number ∧
        ga._current_population[winner]? = some chromosome ∧
        parents[i]? = some chromosome) ∧
      (∀ parent ∈ parents, parent ∈ ga._current_population) :=
  select_parents_spec ga shuffle hpop hscores hk0 hk hperm

theorem scenario_shuffle_perm :
    ∀ i, i < 4 → (scenario_generation.shuffle i (List.range 4)).Perm (List.range 4) := by
  intro i hi
  interval_cases i <;> decide

/-- Parent selection on the evaluated scenario population; with the scenario shuffles
the chromosome `{0.05}` fills the slots 1 and 2. -/
theorem select_parents_fills_slots_witness :
    (∃ parents, scenario_evaluated.select_parents scenario_generation.shuffle =
        some parents ∧
      parents.length = scenario_evaluated._pop_number ∧
      (∀ i, i < scenario_evaluated._pop_number → ∃ (run_indices : List Nat) (winner : Nat)
          (chromosome : List ℚ),
        scenario_evaluated._pick_random_chromosome
            scenario_evaluated._k_tournament_selection (scenario_generation.shuffle i) =
          some run_indices ∧
        scenario_evaluated._tournament_selection run_indices = some winner ∧
        winner < scenario_evaluated._pop_number ∧
        scenario_evaluated._current_population[winner]? = some chromosome ∧
        parents[i]? = some chromosome) ∧
      (∀ parent ∈ parents, parent ∈ scenario_evaluated._current_population)) ∧
    scenario_evaluated.select_parents scenario_generation.shuffle =
      some [[-(1 / 10)], [1 / 20], [1 / 20], [1 / 2]] :=
  ⟨select_parents_fills_slots scenario_evaluated scenario_generation.shuffle (by decide)
    (by decide) (by decide) (by decide) scenario_shuffle_perm, by decide!⟩

/-- C3: on a non-empty population of chromosomes of equal length `n ≥ 1`, with crossover
points in `[0, n - 1]`, `crossover` returns a population of the same shape, and for every
pair `(2i, 2i+1)` for which crossover fires with crossover point `c` the genes at the
positions `0..=c` of the two chromosomes are exchanged while the genes at the positions
`c+1..n-1` stay in place.  With `crossover_probability = 1` and probability samples in
`[0,1)` this holds for every pair, pair `i` using the `i`-th crossover point drawn. -/
theorem crossover_exchanges_leading_genes (ga : GeneticAlgorithm)
    (population : List (List ℚ)) (probability : Nat → ℚ) (point : Nat → Nat) (n : Nat)
    (hn : 1 ≤ n) (hne : population ≠ [])
    (hlen : ∀ chromosome ∈ population, chromosome.length = n)
    (hpoint : ∀ j, point j ≤ n - 1) :
    ∃ out, ga.crossover population probability point = some out ∧
      out.length = population.length ∧
      (∀ chromosome ∈ out, chromosome.length = n) ∧
      (∀ i, 2 * i + 1 < population.length → probability i < ga._crossover_probability →
        ∀ g, g < n →
          gene out (2 * i) g =
            (if g ≤ point (fired_count ga._crossover_probability probability 0 i)
              then gene population (2 * i + 1) g else gene population (2 * i) g) ∧
          gene out (2 * i + 1) g =
            (if g ≤ point (fired_count ga._crossover_probability probability 0 i)
              then gene population (2 * i) g else gene population (2 * i + 1) g)) ∧
      (ga._crossover_probability = 1 → (∀ i, 0 ≤ probability i ∧ probability i < 1) →
        ∀ i, 2 * i + 1 < population.length → ∀ g, g < n →
          gene out (2 * i) g =
            (if g ≤ point i then gene population (2 * i + 1) g
              else gene population (2 * i) g) ∧
          gene out (2 * i + 1) g =
            (if g ≤ point i then gene population (2 * i) g
              else gene population (2 * i + 1) g)) := by
  obtain ⟨out, hout, _, hlength, hlens, hpairs, _⟩ :=
    crossover_spec ga population probability point n hne hlen
      (fun j => by have := hpoint j; omega)
  refine ⟨out, hout, hlength, hlens, ?_, ?_⟩
  · intro i hi hfire g _
    have h := hpairs i hi g
    by_cases hg : g ≤ point (fired_count ga._crossover_probability probability 0 i)
    · rw [if_pos ⟨hfire, hg⟩, if_pos ⟨hfire, hg⟩] at h
      rw [if_pos hg, if_pos hg]
      exact h
    · rw [if_neg (fun hc => hg hc.2), if_neg (fun hc => hg hc.2)] at h
      rw [if_neg hg, if_neg hg]
      exact h
  · intro hone hsamples i hi g _
    have hall : ∀ t, probability t < ga._crossover_probability :=
      fun t => by rw [hone]; exact (hsamples t).2
    have hcount := fired_count_all ga._crossover_probability probability hall i 0
    have h := hpairs i hi g
    rw [hcount] at h
    by_cases hg : g ≤ point i
    · rw [if_pos ⟨hall i, hg⟩, if_pos ⟨hall i, hg⟩] at h
      rw [if_pos hg, if_pos hg]
      exact h
    · rw [if_neg (fun hc => hg hc.2), if_neg (fun hc => hg hc.2)] at h
      rw [if_neg hg, if_neg hg]
      exact h

/-- Crossover with probability `1` and crossover point `1` on three chromosomes of three
genes: the first two chromosomes exchange their genes `0` and `1`. -/
theorem crossover_exchanges_leading_genes_witness :
    (∃ out, always_ga.crossover sample_population half_samples unit_samples = some out ∧
      out.length = sample_population.length ∧
      (∀ g, g < 3 →
        gene out 0 g =
          (if g ≤ unit_samples 0 then gene sample_population 1 g
            else gene sample_population 0 g) ∧
        gene out 1 g =
          (if g ≤ unit_samples 0 then gene sample_population 0 g
            else gene sample_population 1 g))) ∧
    always_ga.crossover sample_population half_samples unit_samples =
      some [[4, 5, 3], [1, 2, 6], [7, 8, 9]] :=
  ⟨(crossover_exchanges_leading_genes always_ga sample_population half_samples
      unit_samples 3 (by decide) (by decide) (by decide)
      (fun _ => (by decide : (1 : Nat) ≤ 3 - 1))).imp
    (fun _ h => ⟨h.1, h.2.1,
      h.2.2.2.2 rfl (fun _ => (by decide! : (0 : ℚ) ≤ 1 / 2 ∧ (1 / 2 : ℚ) < 1)) 0
        (by decide)⟩),
    by decide!⟩

end GeneticAlgorithm

end EvoAlgos

namespace evy

/-- C4: `evy::Crossover::operator()` visits the consecutive pairs `(p[0],p[1])`,
`(p[2],p[3])`, ... in order and keeps the size of the container; it draws exactly one
generator sample and one probability value per complete pair; pair `t` is replaced by
the result of the strategy (called in the state left by the pairs before it) when its
sample is strictly less than the probability value, and is left unchanged, without a
call of the strategy, when the sample is greater or equal. -/
theorem Crossover_processes_pairs {C S P : Type} [LT P]
    [DecidableRel (fun a b : P => a < b)] (crossoverProbability : Nat → P)
    (crossoverStrategy : S → C → C → C × C × S) (generator : Nat → P)
    (chromosomes : List C) (g p : Nat) (s : S) :
    (Crossover crossoverProbability crossoverStrategy generator chromosomes g p
      s).chromosomes.length = chromosomes.length ∧
    (Crossover crossoverProbability crossoverStrategy generator chromosomes g p
      s).generator_calls = g + chromosomes.length / 2 ∧
    (Crossover crossoverProbability crossoverStrategy generator chromosomes g p
      s).probability_calls = p + chromosomes.length / 2 ∧
    (Crossover crossoverProbability crossoverStrategy generator chromosomes g p
      s).strategy_state =
      (Crossover crossoverProbability crossoverStrategy generator
        (chromosomes.take (2 * (chromosomes.length / 2))) g p s).strategy_state ∧
    ∀ t, 2 * t + 1 < chromosomes.length →
      ∃ first second, chromosomes[2 * t]? = some first ∧
        chromosomes[2 * t + 1]? = some second ∧
        (Crossover crossoverProbability crossoverStrategy generator
          (chromosomes.take (2 * t)) g p s).generator_calls = g + t ∧
        (Crossover crossoverProbability crossoverStrategy generator
          (chromosomes.take (2 * t)) g p s).probability_calls = p + t ∧
        if generator (g + t) < crossoverProbability (p + t) then
          (Crossover crossoverProbability crossoverStrategy generator chromosomes g p
            s).chromosomes[2 * t]? =
            some (crossoverStrategy
              (Crossover crossoverProbability crossoverStrategy generator
                (chromosomes.take (2 * t)) g p s).strategy_state first second).1 ∧
          (Crossover crossoverProbability crossoverStrategy generator chromosomes g p
            s).chromosomes[2 * t + 1]? =
            some (crossoverStrategy
              (Crossover crossoverProbability crossoverStrategy generator
                (chromosomes.take (2 * t)) g p s).strategy_state first second).2.1 ∧
          (Crossover crossoverProbability crossoverStrategy generator
            (chromosomes.take (2 * (t + 1))) g p s).strategy_state =
            (crossoverStrategy
              (Crossover crossoverProbability crossoverStrategy generator
                (chromosomes.take (2 * t)) g p s).strategy_state first second).2.2
        else
          (Crossover crossoverProbability crossoverStrategy generator chromosomes g p
            s).chromosomes[2 * t]? = some first ∧
          (Crossover crossoverProbability crossoverStrategy generator chromosomes g p
            s).chromosomes[2 * t + 1]? = some second ∧
          (Crossover crossoverProbability crossoverStrategy generator
            (chromosomes.take (2 * (t + 1))) g p s).strategy_state =
            (Crossover crossoverProbability crossoverStrategy generator
              (chromosomes.take (2 * t)) g p s).strategy_state := by
  obtain ⟨hlen, hgen, hprob, _⟩ :=
    Crossover_frame crossoverProbability crossoverStrategy generator chromosomes g p s
  exact ⟨hlen, hgen, hprob,
    Crossover_final_state crossoverProbability crossoverStrategy generator chromosomes g p s,
    Crossover_pairs crossoverProbability crossoverStrategy generator chromosomes g p s⟩

/-- The generic operator on three pairs with the samples `0, 1, 2` and the probability
`0.5`: only the first pair is handed to the strategy, and three samples are drawn. -/
theorem Crossover_processes_pairs_witness :
    (Crossover EvoAlgos.half_samples EvoAlgos.exchange_strategy EvoAlgos.counting_generator
      [[1], [2], [3], [4], [5], [6]] 0 0 0).chromosomes = [[2], [1], [3], [4], [5], [6]] ∧
    (Crossover EvoAlgos.half_samples EvoAlgos.exchange_strategy EvoAlgos.counting_generator
      [[1], [2], [3], [4], [5], [6]] 0 0 0).generator_calls = 0 + 6 / 2 ∧
    (Crossover EvoAlgos.half_samples EvoAlgos.exchange_strategy EvoAlgos.counting_generator
      [[1], [2], [3], [4], [5], [6]] 0 0 0).strategy_state = 1 :=
  ⟨by decide!,
    (Crossover_processes_pairs EvoAlgos.half_samples EvoAlgos.exchange_strategy
      EvoAlgos.counting_generator [[1], [2], [3], [4], [5], [6]] 0 0 0).2.1,
    by decide!⟩

end evy

namespace EvoAlgos

namespace GeneticAlgorithm

theorem differing_genes_self (l : List ℚ) : differing_genes l l = 0 := by
  induction l with
  | nil => rfl
  | cons a l ih =>
    unfold differing_genes at ih ⊢
    simp only [List.zip_cons_cons, ne_eq, not_true_eq_false, decide_False, Bool.false_eq_true,
      not_false_eq_true, List.filter_cons_of_neg]
    exact ih

theorem differing_genes_set (l : List ℚ) (v : ℚ) :
    ∀ i, differing_genes l (l.set i v) ≤ 1 := by
  induction l with
  | nil => intro i; simp [differing_genes]
  | cons a l ih =>
    intro i
    cases i with
    | zero =>
      have h := differing_genes_self l
      unfold differing_genes at h ⊢
      simp only [List.set_cons_zero, List.zip_cons_cons]
      by_cases hav : a = v
      · rw [List.filter_cons_of_neg (by simp [hav]), h]
        omega
      · rw [List.filter_cons_of_pos (by simp [hav]), List.length_cons, h]
    | succ i =>
      have h := ih i
      unfold differing_genes at h ⊢
      simp only [List.set_cons_succ, List.zip_cons_cons]
      rw [List.filter_cons_of_neg (by simp)]
      exact h

/-- C6 as stated fails: with `mutation_probability = 1`, one chromosome `{0.5}`, the bound
`[-1, 1]`, mutation index `0` and resample factor `0.75`, the resampled gene is
`0.75 * (1 - (-1)) + (-1) = 0.5`, so the output of `mutate` is equal to its input and
differs from it in no gene. -/
theorem mutate_can_redraw_the_same_gene :
    always_ga._mutation_probability = 1 ∧
    scenario_problem.num_parameters = 1 ∧
    scenario_problem.constraints = [(-1, 1)] ∧
    (0 ≤ half_samples 0 ∧ half_samples 0 < 1) ∧
    zero_samples 0 ≤ scenario_problem.num_parameters - 1 ∧
    (0 ≤ three_quarter_samples 0 ∧ three_quarter_samples 0 < 1) ∧
    always_ga.mutate [[1 / 2]] scenario_problem half_samples zero_samples
      three_quarter_samples = some [[1 / 2]] ∧
    differing_genes [1 / 2] [1 / 2] = 0 := by
  decide!

/-- C6, amended: with `mutation_probability = 1` (every probability sample in `[0,1)`
fires), on a non-empty population of chromosomes of `num_parameters ≥ 1` genes, with
bounds that are finite `double`s with `lower ≤ upper` and a width `upper - lower` that
does not overflow (`upper - lower ≤ max_double`), mutation indices in
`[0, num_parameters - 1]` and resample factors in `[0,1)`, `mutate` returns a population
of the same size in which chromosome `t` is the input chromosome with the gene at its
mutation index overwritten by `number * (upper - lower) + lower`, whose width is
computed without overflow; the new value lies within `[lower, upper]` of its position,
every other gene is unchanged, and so the chromosome differs from the input in at most
one gene.  (Without the bound on the width the subtraction of line 143 overflows for
finite bounds such as `[-2^1023, 2^1023]` and the program stores `+inf` or NaN, outside
`[lower, upper]`.) -/
theorem mutate_overwrites_one_gene (ga : GeneticAlgorithm) (population : List (List ℚ))
    (problem : OptimizationProblem) (probability : Nat → ℚ) (index : Nat → Nat)
    (number : Nat → ℚ) (hmp : ga._mutation_probability = 1)
    (hn : 1 ≤ problem.num_parameters) (hne : population ≠ [])
    (hlen : ∀ chromosome ∈ population, chromosome.length = problem.num_parameters)
    (hbounds : ∀ c ∈ problem.constraints,
      -max_double ≤ c.1 ∧ c.1 ≤ c.2 ∧ c.2 ≤ max_double ∧ c.2 - c.1 ≤ max_double)
    (hprobability : ∀ i, 0 ≤ probability i ∧ probability i < 1)
    (hindex : ∀ j, index j ≤ problem.num_parameters - 1)
    (hnumber : ∀ j, 0 ≤ number j ∧ number j < 1) :
    ∃ out, ga.mutate population problem probability index number = some out ∧
      out.length = population.length ∧
      ∀ t, t < population.length →
        ∃ (original changed : List ℚ) (lower upper : ℚ),
          population[t]? = some original ∧ out[t]? = some changed ∧
          problem.constraints[index t]? = some (lower, upper) ∧
          changed = original.set (index t) (number t * (upper - lower) + lower) ∧
          changed[index t]? = some (number t * (upper - lower) + lower) ∧
          upper - lower ≤ max_double ∧
          lower ≤ number t * (upper - lower) + lower ∧
          number t * (upper - lower) + lower ≤ upper ∧
          (∀ g : Nat, g ≠ index t → changed[g]? = original[g]?) ∧
          differing_genes original changed ≤ 1 := by
  have hindex' : ∀ j, index j < problem.num_parameters :=
    fun j => by have := hindex j; omega
  obtain ⟨out, hout, _, hlength, _, hall⟩ :=
    mutate_spec ga population problem probability index number hne hlen hindex'
  have hfire : ∀ t, probability t < ga._mutation_probability :=
    fun t => by rw [hmp]; exact (hprobability t).2
  refine ⟨out, hout, hlength, ?_⟩
  intro t ht
  obtain ⟨original, horiginal, hcase⟩ := hall t ht
  rw [if_pos (hfire t), fired_count_all _ _ hfire t 0] at hcase
  obtain ⟨lower, upper, hcons, hset⟩ := hcase
  have hbound := hbounds _ (List.getElem?_mem hcons)
  have hrange := resampled_gene_range lower upper (number t)
    hbound.2.1 (hnumber t).1 (hnumber t).2
  have hol : index t < original.length := by
    rw [hlen original (List.getElem?_mem horiginal)]
    exact hindex' t
  refine ⟨original, _, lower, upper, horiginal, hset, hcons, rfl, ?_, hbound.2.2.2,
    hrange.1, hrange.2, ?_, differing_genes_set original _ (index t)⟩
  · rw [List.getElem?_set_self hol]
  · intro g hg
    rw [List.getElem?_set_ne (Ne.symm hg)]

/-- Mutation with probability `1` of the first gene of three chromosomes of three genes
bounded by `[0, 10]`, with resample factor `0.75`. -/
theorem mutate_overwrites_one_gene_witness :
    (∃ out, always_ga.mutate sample_population sample_problem half_samples zero_samples
        three_quarter_samples = some out ∧
      out.length = sample_population.length) ∧
    always_ga.mutate sample_population sample_problem half_samples zero_samples
      three_quarter_samples = some [[15 / 2, 2, 3], [15 / 2, 5, 6], [15 / 2, 8, 9]] :=
  ⟨(mutate_overwrites_one_gene always_ga sample_population sample_problem half_samples
      zero_samples three_quarter_samples rfl (by decide) (by decide) (by decide)
      (by decide!) (fun _ => (by decide! : (0 : ℚ) ≤ 1 / 2 ∧ (1 / 2 : ℚ) < 1))
      (fun _ => (by decide : (0 : Nat) ≤ 3 - 1))
      (fun _ => (by decide! : (0 : ℚ) ≤ 3 / 4 ∧ (3 / 4 : ℚ) < 1))).imp
    (fun _ h => ⟨h.1, h.2.1⟩),
    by decide!⟩

theorem scenario_draws_valid : scenario_draws.Valid 4 1 where
  initial_range := by
    intro n
    have h : n < 4 ∨ 4 ≤ n := Nat.lt_or_ge n 4
    rcases h with h | h
    · interval_cases n <;> decide!
    · have e : scenario_draws.initial n = 0 := by
        simp only [scenario_draws]
        rw [List.getD_eq_default _ _ (by simpa using h)]
      rw [e]
      decide!
  generation_valid := fun _ =>
    { shuffle_perm := scenario_shuffle_perm
      crossover_probability_range :=
        fun _ => (by decide! : (0 : ℚ) ≤ 1 / 2 ∧ (1 / 2 : ℚ) < 1)
      crossover_point_range := fun _ => (by decide : (0 : Nat) < 1)
      mutation_probability_range :=
        fun _ => (by decide! : (0 : ℚ) ≤ 1 / 2 ∧ (1 / 2 : ℚ) < 1)
      mutation_index_range := fun _ => (by decide : (0 : Nat) < 1)
      mutation_number_range :=
        fun _ => (by decide! : (0 : ℚ) ≤ 1 / 2 ∧ (1 / 2 : ℚ) < 1) }

theorem new_spec (pop_number max_iterations k_tournament_selection : Int)
    (crossover_probability mutation_probability : ℚ) (hpop : 0 ≤ pop_number) :
    ∃ ga, GeneticAlgorithm.new pop_number max_iterations k_tournament_selection
        crossover_probability mutation_probability = some ga ∧
      (ga._pop_number : Int) = pop_number ∧ ga._pop_number = pop_number.toNat ∧
      ga._max_iterations = max_iterations ∧
      ga._k_tournament_selection = k_tournament_selection ∧
      ga._crossover_probability = crossover_probability ∧
      ga._mutation_probability = mutation_probability ∧
      ga._scores = List.replicate ga._pop_number 0 ∧
      ga._current_population = [] := by
  refine ⟨_, if_pos hpop, ?_, rfl, rfl, rfl, rfl, rfl, rfl, rfl⟩
  exact Int.toNat_of_nonneg hpop

/-- The report of `run` is a chromosome of the population left by the last
iteration. -/
theorem run_spec (ga : GeneticAlgorithm) (problem : OptimizationProblem) (draws : RunDraws)
    (hpop : 1 ≤ ga._pop_number) (hk0 : 0 ≤ ga._k_tournament_selection)
    (hk : ga._k_tournament_selection + 1 ≤ (ga._pop_number : Int))
    (hscores : ga._scores.length = ga._pop_number)
    (hdraws : draws.Valid ga._pop_number problem.num_parameters) :
    ∃ final best, state_after ga problem draws ga._max_iterations.toNat = some final ∧
      ga.run problem draws = some best ∧
      final._current_population[max_element final._scores]? = some best ∧
      best ∈ final._current_population := by
  obtain ⟨final, hfinal, h1, _, _, _, _, hsize, _, hsc, _⟩ :=
    state_after_spec ga problem draws hpop hk0 hk hscores hdraws ga._max_iterations.toNat
  have hne : final._scores ≠ [] := by
    intro h
    rw [h] at hsc
    simp only [List.length_nil] at hsc
    omega
  obtain ⟨w, hw, _⟩ := max_element_spec final._scores hne
  have hlt := lt_length_of_getElem? hw
  obtain ⟨best, hbest⟩ := getElem?_defined (l := final._current_population)
    (i := max_element final._scores) (by rw [hsize, ← hsc]; exact hlt)
  refine ⟨final, best, hfinal, ?_, hbest, List.getElem?_mem hbest⟩
  unfold run
  rw [hfinal]
  exact hbest

/-- C7 as stated fails: the configuration `pop_number = 4`, `k_tournament = -1` satisfies
`pop_number ≥ 1` and `k_tournament + 1 ≤ pop_number`, the scenario problem has one
parameter with bound `[-1, 1]`, and the scenario draws are valid, yet the first
generation has no defined outcome (the tournament list is empty and
`_tournament_selection` reads its first element): there is no population after
generation 1, and `run` reports nothing. -/
theorem feasibility_needs_nonnegative_k :
    GeneticAlgorithm.new 4 1 (-1) 0 0 = some negative_k_ga ∧
    1 ≤ scenario_problem.num_parameters ∧
    scenario_problem.constraints.length = scenario_problem.num_parameters ∧
    (∀ c ∈ scenario_problem.constraints, c.1 ≤ c.2) ∧
    (1 : Int) ≤ 4 ∧ (-1 : Int) + 1 ≤ 4 ∧
    scenario_draws.Valid 4 1 ∧
    negative_k_ga._max_iterations = 1 ∧
    state_after negative_k_ga scenario_problem scenario_draws 1 = none ∧
    negative_k_ga.run scenario_problem scenario_draws = none :=
  ⟨by decide!, by decide, by decide, by decide!, by decide, by decide, scenario_draws_valid,
    by decide, by decide!, by decide!⟩

/-- C7, amended by `0 ≤ k_tournament` and by the absence of overflow: if the constraints
have length `num_parameters ≥ 1` and every pair consists of finite `double`s with
`lower ≤ upper` whose width `upper - lower` does not overflow
(`upper - lower ≤ max_double`), `pop_number ≥ 1` and `0 ≤ k_tournament`,
`k_tournament + 1 ≤ pop_number`, then for every outcome of the random draws the
optimiser can be constructed, the current population exists and is feasible after the
initialisation and after every generation, `select_parents`, `crossover` and `mutate`
each return a feasible population in every generation, and `run` reports a feasible
chromosome.  (The length of the constraints is part of `OptimizationProblem`; valid draws
exist only for `num_parameters ≥ 1`.  Without the bound on the width the subtractions of
lines 46 and 143 overflow for finite bounds such as `[-2^1023, 2^1023]` and the program
stores `+inf` or NaN, outside `[lower, upper]`.) -/
theorem run_keeps_population_feasible (pop_number max_iterations k_tournament : Int)
    (crossover_probability mutation_probability : ℚ) (problem : OptimizationProblem)
    (draws : RunDraws)
    (hrange : ∀ c ∈ problem.constraints,
      -max_double ≤ c.1 ∧ c.1 ≤ c.2 ∧ c.2 ≤ max_double ∧ c.2 - c.1 ≤ max_double)
    (hpop : 1 ≤ pop_number)
    (hk0 : 0 ≤ k_tournament) (hk : k_tournament + 1 ≤ pop_number)
    (hdraws : draws.Valid pop_number.toNat problem.num_parameters) :
    ∃ ga, GeneticAlgorithm.new pop_number max_iterations k_tournament
        crossover_probability mutation_probability = some ga ∧
      (∀ g, ∃ st, state_after ga problem draws g = some st ∧
        (∀ chromosome ∈ st._current_population,
          Feasible problem.constraints chromosome) ∧
        ∃ (evaluated : GeneticAlgorithm)
            (new_parents new_population mutated : List (List ℚ)),
          st.evaluate st._current_population problem = some evaluated ∧
          evaluated.select_parents (draws.generation g).shuffle = some new_parents ∧
          (∀ chromosome ∈ new_parents, Feasible problem.constraints chromosome) ∧
          evaluated.crossover new_parents (draws.generation g).crossover_probability
            (draws.generation g).crossover_point = some new_population ∧
          (∀ chromosome ∈ new_population, Feasible problem.constraints chromosome) ∧
          evaluated.mutate new_population problem (draws.generation g).mutation_probability
            (draws.generation g).mutation_index (draws.generation g).mutation_number =
            some mutated ∧
          (∀ chromosome ∈ mutated, Feasible problem.constraints chromosome) ∧
          state_after ga problem draws (g + 1) =
            some { evaluated with _current_population := mutated }) ∧
      ∃ best, ga.run problem draws = some best ∧ Feasible problem.constraints best := by
  have hbounds : ∀ c ∈ problem.constraints, c.1 ≤ c.2 := fun c hc => (hrange c hc).2.1
  obtain ⟨ga, hga, hcast, htoNat, _, hkeq, _, _, hscores, _⟩ :=
    new_spec pop_number max_iterations k_tournament crossover_probability
      mutation_probability (by omega)
  have hpop' : 1 ≤ ga._pop_number := by omega
  have hk0' : 0 ≤ ga._k_tournament_selection := by rw [hkeq]; exact hk0
  have hk' : ga._k_tournament_selection + 1 ≤ (ga._pop_number : Int) := by
    rw [hkeq, hcast]; exact hk
  have hsc : ga._scores.length = ga._pop_number := by rw [hscores, List.length_replicate]
  have hdraws' : draws.Valid ga._pop_number problem.num_parameters := by
    rw [htoNat]; exact hdraws
  refine ⟨ga, hga, ?_, ?_⟩
  · intro g
    obtain ⟨st, hst, h1, h2, _, _, _, hsize, hlens, hscl, hfeasible⟩ :=
      state_after_spec ga problem draws hpop' hk0' hk' hsc hdraws' g
    obtain ⟨evaluated, new_parents, new_population, mutated, hev, _, hsel, hcross, hmut,
        hgen, _, _, _, _, _, _, hfeas⟩ :=
      generation_spec st problem (draws.generation g) (by rw [h1]; exact hpop')
        (by rw [h2]; exact hk0') (by rw [h1, h2]; exact hk') (by rw [hsize, h1]) hlens
        (by rw [hscl, h1]) (by rw [h1]; exact hdraws'.generation_valid g)
    obtain ⟨hf1, hf2, hf3⟩ := hfeas hbounds (hfeasible hbounds)
    refine ⟨st, hst, hfeasible hbounds, evaluated, new_parents, new_population, mutated,
      hev, hsel, hf1, hcross, hf2, hmut, hf3, ?_⟩
    show (match state_after ga problem draws g with
      | some current => current.generation problem (draws.generation g)
      | none => none) = _
    rw [hst]
    exact hgen
  · obtain ⟨final, best, hfinal, hrun, _, hmem⟩ :=
      run_spec ga problem draws hpop' hk0' hk' hsc hdraws'
    obtain ⟨st, hst, _, _, _, _, _, _, _, _, hfeasible⟩ :=
      state_after_spec ga problem draws hpop' hk0' hk' hsc hdraws' ga._max_iterations.toNat
    rw [hfinal] at hst
    have he := Option.some.inj hst
    subst he
    exact ⟨best, hrun, hfeasible hbounds best hmem⟩

/-- The scenario configuration on the scenario problem with the scenario draws. -/
theorem run_keeps_population_feasible_witness :
    ∃ ga, GeneticAlgorithm.new 4 1 1 0 0 = some ga ∧
      ∃ best, ga.run scenario_problem scenario_draws = some best ∧
        Feasible scenario_problem.constraints best :=
  (run_keeps_population_feasible 4 1 1 0 0 scenario_problem scenario_draws
    (by decide!) (by decide) (by decide) (by decide) scenario_draws_valid).imp
    (fun _ h => ⟨h.1, h.2.2⟩)

/-- C1: in the end-to-end scenario (`num_parameters = 1`, constraints `[[-1, 1]]`,
`pop_number = 4`, `max_iterations = 1`, `k_tournament = 1`, both probabilities `0`,
objective `-x^2`, initial genes `0.5, -0.1, 0.9, 0.05`) the last score table is
`-0.25, -0.01, -0.81, -0.0025`, computed from the initial population, and its first
greatest entry is at index 3, where the initial population holds `{0.05}`.  When the
shuffle of parent slot 3 starts with the indices `0 2`, the population left by the
generation holds `{0.5}` at index 3, and this is what `run` returns: the reported
chromosome is read from the population produced by the last generation, not from the
population the score table was computed from. -/
theorem run_scenario_reports_slot_of_new_population :
    GeneticAlgorithm.new 4 1 1 0 0 = some scenario_ga ∧
    scenario_draws.Valid 4 1 ∧
    (state_after scenario_ga scenario_problem scenario_draws 0).map
      (fun st => st._current_population) =
      some [[1 / 2], [-(1 / 10)], [9 / 10], [1 / 20]] ∧
    (state_after scenario_ga scenario_problem scenario_draws 1).map
      (fun st => st._scores) =
      some [-(1 / 4), -(1 / 100), -(81 / 100), -(1 / 400)] ∧
    max_element [-(1 / 4), -(1 / 100), -(81 / 100), -(1 / 400)] = 3 ∧
    (state_after scenario_ga scenario_problem scenario_draws 1).map
      (fun st => st._current_population) =
      some [[-(1 / 10)], [1 / 20], [1 / 20], [1 / 2]] ∧
    scenario_ga.run scenario_problem scenario_draws = some [1 / 2] ∧
    scenario_ga.run scenario_problem scenario_draws ≠ some [1 / 20] :=
  ⟨by decide!, scenario_draws_valid, by decide!, by decide!, by decide!, by decide!,
    by decide!, by decide!⟩

/-- C11: for a population of `pop_number` chromosomes and a score table of `pop_number`
entries, `evaluate` returns, the score table has the length of the population and entry
`i` is the objective of chromosome `i`; the new table is the list of the objectives of
the chromosomes, so it is the same whatever the previous table held, and the other
members are left as they were. -/
theorem evaluate_scores_population (ga : GeneticAlgorithm)
    (solution_population : List (List ℚ)) (problem : OptimizationProblem)
    (hpop : solution_population.length = ga._pop_number)
    (hscores : ga._scores.length = ga._pop_number) :
    ∃ evaluated, ga.evaluate solution_population problem = some evaluated ∧
      evaluated._scores.length = solution_population.length ∧
      (∀ (i : Nat) (chromosome : List ℚ), solution_population[i]? = some chromosome →
        evaluated._scores[i]? = some (problem.objective_function chromosome)) ∧
      evaluated._scores = solution_population.map problem.objective_function ∧
      (∀ previous : List ℚ, previous.length = ga._pop_number →
        GeneticAlgorithm.evaluate { ga with _scores := previous } solution_population
          problem = some evaluated) ∧
      evaluated._current_population = ga._current_population ∧
      evaluated._pop_number = ga._pop_number := by
  refine ⟨{ ga with _scores := solution_population.map problem.objective_function },
    evaluate_spec ga solution_population problem (by rw [hscores, hpop]), ?_, ?_, rfl, ?_,
    rfl, rfl⟩
  · simp
  · intro i chromosome hi
    simp only [List.getElem?_map, hi, Option.map_some']
  · intro previous hprevious
    exact evaluate_spec { ga with _scores := previous } solution_population problem
      (by rw [hpop]; exact hprevious)

/-- Evaluation of the initial population of the end-to-end scenario on the all-zero score
table left by the constructor. -/
theorem evaluate_scores_population_witness :
    (∃ evaluated,
      scenario_ga.evaluate [[1 / 2], [-(1 / 10)], [9 / 10], [1 / 20]] scenario_problem =
        some evaluated ∧
      evaluated._scores =
        [[1 / 2], [-(1 / 10)], [9 / 10], [1 / 20]].map scenario_problem.objective_function) ∧
    (scenario_ga.evaluate [[1 / 2], [-(1 / 10)], [9 / 10], [1 / 20]] scenario_problem).map
      (fun evaluated => evaluated._scores) =
      some [-(1 / 4), -(1 / 100), -(81 / 100), -(1 / 400)] :=
  ⟨(evaluate_scores_population scenario_ga [[1 / 2], [-(1 / 10)], [9 / 10], [1 / 20]]
      scenario_problem (by decide) (by decide)).imp (fun _ h => ⟨h.1, h.2.2.2.1⟩),
    by decide!⟩

/-- C12 as stated fails: the constructor returns an object for `pop_number = 0`, for
`k_tournament = 5` with `pop_number = 4`, for `mutation_probability = 1.5` and for
`max_iterations = -1`; with `mutation_probability = 1.5` the run of the end-to-end
scenario starts and reports a chromosome. -/
theorem constructor_accepts_invalid_configurations :
    (GeneticAlgorithm.new 0 1 0 0 0).isSome = true ∧
    (GeneticAlgorithm.new 4 1 5 0 0).isSome = true ∧
    GeneticAlgorithm.new 4 1 1 0 (3 / 2) = some invalid_probability_ga ∧
    (GeneticAlgorithm.new 4 (-1) 1 0 0).isSome = true ∧
    invalid_probability_ga.run scenario_problem scenario_draws = some [0] := by
  decide!

/-- C12, amended: the constructor validates nothing.  For every `pop_number ≥ 0` and
every value of the other four arguments it returns an object that stores the five
arguments unchanged, with a score table of `pop_number` zeros and no population (in
particular for `pop_number = 0`, for `k_tournament = 5` with `pop_number = 4` and for
`mutation_probability = 1.5`); construction fails only for `pop_number < 0`, where the
allocation of the score table throws. -/
theorem constructor_stores_configuration (pop_number max_iterations k_tournament : Int)
    (crossover_probability mutation_probability : ℚ) :
    (0 ≤ pop_number →
      ∃ ga, GeneticAlgorithm.new pop_number max_iterations k_tournament
          crossover_probability mutation_probability = some ga ∧
        (ga._pop_number : Int) = pop_number ∧
        ga._max_iterations = max_iterations ∧
        ga._k_tournament_selection = k_tournament ∧
        ga._crossover_probability = crossover_probability ∧
        ga._mutation_probability = mutation_probability ∧
        ga._scores.length = ga._pop_number ∧
        (∀ score ∈ ga._scores, score = 0) ∧
        ga._current_population = []) ∧
    (pop_number < 0 →
      GeneticAlgorithm.new pop_number max_iterations k_tournament crossover_probability
        mutation_probability = none) := by
  constructor
  · intro hpop
    obtain ⟨ga, hga, h1, _, h3, h4, h5, h6, h7, h8⟩ :=
      new_spec pop_number max_iterations k_tournament crossover_probability
        mutation_probability hpop
    refine ⟨ga, hga, h1, h3, h4, h5, h6, by rw [h7, List.length_replicate], ?_, h8⟩
    intro score hscore
    rw [h7] at hscore
    exact List.eq_of_mem_replicate hscore
  · intro hneg
    unfold GeneticAlgorithm.new
    rw [if_neg (by omega)]

/-- The constructor on the three invalid configurations of the specification. -/
theorem constructor_stores_configuration_witness :
    (∃ ga, GeneticAlgorithm.new 0 1 0 0 0 = some ga ∧ ga._scores.length = ga._pop_number) ∧
    (∃ ga, GeneticAlgorithm.new 4 1 5 0 0 = some ga ∧ ga._k_tournament_selection = 5) ∧
    (∃ ga, GeneticAlgorithm.new 4 1 1 0 (3 / 2) = some ga ∧
      ga._mutation_probability = 3 / 2) ∧
    GeneticAlgorithm.new (-1) 1 0 0 0 = none :=
  ⟨((constructor_stores_configuration 0 1 0 0 0).1 (by decide)).imp
      (fun _ h => ⟨h.1, h.2.2.2.2.2.2.1⟩),
    ((constructor_stores_configuration 4 1 5 0 0).1 (by decide)).imp
      (fun _ h => ⟨h.1, h.2.2.2.1⟩),
    ((constructor_stores_configuration 4 1 1 0 (3 / 2)).1 (by decide)).imp
      (fun _ h => ⟨h.1, h.2.2.2.2.2.1⟩),
    (constructor_stores_configuration (-1) 1 0 0 0).2 (by decide)⟩

/-- When no probability sample is below the mutation probability the loop of `mutate`
returns the chromosomes as they are, after one probability sample per chromosome and no
other draw. -/
theorem mutate_loop_skipped (mp : ℚ) (constraints : List (ℚ × ℚ)) (probability : Nat → ℚ)
    (index : Nat → Nat) (number : Nat → ℚ) (hskip : ∀ i, ¬ probability i < mp) :
    ∀ (population : List (List ℚ)) (i j : Nat),
      mutate_loop mp constraints probability index number population i j =
        some (population, i + population.length, j)
  | [], i, j => rfl
  | chromosome :: rest, i, j => by
    unfold mutate_loop
    rw [if_neg (hskip i),
      mutate_loop_skipped mp constraints probability index number hskip rest (i + 1) j]
    simp only [List.length_cons, Option.some.injEq, Prod.mk.injEq, true_and, and_true]
    omega

/-- When no probability sample is below the crossover probability the loop of `crossover`
returns the chromosomes as they are, after one probability sample per complete pair and
no crossover point. -/
theorem crossover_loop_skipped (cp : ℚ) (probability : Nat → ℚ) (point : Nat → Nat)
    (hskip : ∀ i, ¬ probability i < cp) :
    ∀ (population : List (List ℚ)) (i j : Nat),
      crossover_loop cp probability point population i j =
        some (population, i + population.length / 2, j)
  | [], i, j => by simp [crossover_loop_nil]
  | [last], i, j => by simp [crossover_loop_single]
  | first :: second :: rest, i, j => by
    have hhalf : (first :: second :: rest).length / 2 = rest.length / 2 + 1 := by
      simp only [List.length_cons]
      omega
    rw [crossover_loop_pair, if_neg (hskip i),
      crossover_loop_skipped cp probability point hskip rest (i + 1) j, hhalf]
    simp only [Option.some.injEq, Prod.mk.injEq, true_and, and_true]
    omega

end GeneticAlgorithm

end EvoAlgos

namespace evy

/-- When no generator sample is below a probability value the generic operator leaves the
container and the state of the strategy as they are. -/
theorem Crossover_skipped {C S P : Type} [LT P] [DecidableRel (fun a b : P => a < b)]
    (crossoverProbability : Nat → P) (crossoverStrategy : S → C → C → C × C × S)
    (generator : Nat → P) (hskip : ∀ n m, ¬ generator n < crossoverProbability m) :
    ∀ (chromosomes : List C) (g p : Nat) (s : S),
      Crossover crossoverProbability crossoverStrategy generator chromosomes g p s =
        { chromosomes := chromosomes
          generator_calls := g + chromosomes.length / 2
          probability_calls := p + chromosomes.length / 2
          strategy_state := s }
  | [], g, p, s => by simp [Crossover_nil]
  | [last], g, p, s => by simp [Crossover_single]
  | first :: second :: rest, g, p, s => by
    have hhalf : (first :: second :: rest).length / 2 = rest.length / 2 + 1 := by
      simp only [List.length_cons]
      omega
    rw [Crossover_pair_skipped _ _ _ _ _ _ _ _ _ (hskip g p),
      Crossover_skipped crossoverProbability crossoverStrategy generator hskip rest (g + 1)
        (p + 1) s, hhalf]
    simp only [CrossoverState.mk.injEq, true_and, and_true]
    omega

end evy

namespace EvoAlgos

namespace GeneticAlgorithm

/-- C13: for every `mutation_probability`, on a non-empty population of chromosomes of
`num_parameters ≥ 1` genes and for every outcome of the draws (mutation indices in
`[0, num_parameters - 1]`), `mutate` returns a population of the same size in which
every chromosome has the length of the input chromosome at the same index and agrees
with it at every gene position but one, so that the two differ in at most one gene; a
chromosome whose probability sample is not below `mutation_probability` is unchanged. -/
theorem mutate_touches_at_most_one_gene (ga : GeneticAlgorithm)
    (population : List (List ℚ)) (problem : OptimizationProblem) (probability : Nat → ℚ)
    (index : Nat → Nat) (number : Nat → ℚ) (hn : 1 ≤ problem.num_parameters)
    (hne : population ≠ [])
    (hlen : ∀ chromosome ∈ population, chromosome.length = problem.num_parameters)
    (hindex : ∀ j, index j ≤ problem.num_parameters - 1) :
    ∃ out, ga.mutate population problem probability index number = some out ∧
      out.length = population.length ∧
      ∀ t, t < population.length →
        ∃ (original changed : List ℚ) (position : Nat),
          population[t]? = some original ∧ out[t]? = some changed ∧
          changed.length = original.length ∧
          (∀ g : Nat, g ≠ position → changed[g]? = original[g]?) ∧
          differing_genes original changed ≤ 1 ∧
          (ga._mutation_probability ≤ probability t → changed = original) := by
  obtain ⟨out, hout, _, hlength, _, hall⟩ :=
    mutate_spec ga population problem probability index number hne hlen
      (fun j => by have := hindex j; omega)
  refine ⟨out, hout, hlength, ?_⟩
  intro t ht
  obtain ⟨original, horiginal, hcase⟩ := hall t ht
  by_cases hfire : probability t < ga._mutation_probability
  · rw [if_pos hfire] at hcase
    obtain ⟨lower, upper, _, hset⟩ := hcase
    refine ⟨original, _, index (fired_count ga._mutation_probability probability 0 t),
      horiginal, hset, List.length_set _ _ _, ?_, differing_genes_set original _ _, ?_⟩
    · intro g hg
      rw [List.getElem?_set_ne (Ne.symm hg)]
    · intro hle
      exact absurd hfire (not_lt.mpr hle)
  · rw [if_neg hfire] at hcase
    exact ⟨original, original, 0, horiginal, hcase, rfl, fun _ _ => rfl,
      by rw [differing_genes_self]; omega, fun _ => rfl⟩

/-- Mutation with probability `0.25` of three chromosomes whose probability samples are
`0, 1, 2`: only the first chromosome is touched. -/
theorem mutate_touches_at_most_one_gene_witness :
    (∃ out, quarter_ga.mutate sample_population sample_problem counting_generator
        zero_samples three_quarter_samples = some out ∧
      out.length = sample_population.length) ∧
    quarter_ga.mutate sample_population sample_problem counting_generator zero_samples
      three_quarter_samples = some [[15 / 2, 2, 3], [4, 5, 6], [7, 8, 9]] :=
  ⟨(mutate_touches_at_most_one_gene quarter_ga sample_population sample_problem
      counting_generator zero_samples three_quarter_samples (by decide) (by decide)
      (by decide) (fun _ => (by decide : (0 : Nat) ≤ 3 - 1))).imp
    (fun _ h => ⟨h.1, h.2.1⟩),
    by decide!⟩

/-- C15, as stated, fails: with `mutation_probability = 0`, a non-empty population and
probability samples in `[0,1)`, `mutate` does not return when the first chromosome has no
gene, because line 129 constructs `int_dist(0, population[0].size() - 1)` with the bounds
`(0, -1)` before any chromosome is looked at. -/
theorem mutate_with_zero_probability_needs_a_gene :
    scenario_ga._mutation_probability = 0 ∧
    geneless_population ≠ [] ∧
    (∀ i, 0 ≤ half_samples i ∧ half_samples i < 1) ∧
    scenario_ga.mutate geneless_population empty_problem half_samples zero_samples
      three_quarter_samples = none :=
  ⟨rfl, by decide, fun _ => (by decide! : (0 : ℚ) ≤ 1 / 2 ∧ (1 / 2 : ℚ) < 1), rfl⟩

/-- C15, amended: with `mutation_probability = 0`, for every non-empty population whose
first chromosome has at least one gene and probability samples in `[0,1)`, `mutate`
returns a population equal to its input. -/
theorem mutate_with_zero_probability (ga : GeneticAlgorithm) (population : List (List ℚ))
    (problem : OptimizationProblem) (probability : Nat → ℚ) (index : Nat → Nat)
    (number : Nat → ℚ) (hmp : ga._mutation_probability = 0) (hne : population ≠ [])
    (hgenes : ∀ first, population.head? = some first → 1 ≤ first.length)
    (hprobability : ∀ i, 0 ≤ probability i ∧ probability i < 1) :
    ga.mutate population problem probability index number = some population := by
  have hskip : ∀ i, ¬ probability i < ga._mutation_probability :=
    fun i => by rw [hmp]; exact not_lt.mpr (hprobability i).1
  cases population with
  | nil => exact absurd rfl hne
  | cons first rest =>
    rw [mutate_eq_loop ga first rest problem probability index number (hgenes first rfl),
      mutate_loop_skipped _ _ _ _ _ hskip]

/-- Mutation with probability `0` of three chromosomes of three genes. -/
theorem mutate_with_zero_probability_witness :
    scenario_ga.mutate sample_population sample_problem half_samples zero_samples
      three_quarter_samples = some sample_population :=
  mutate_with_zero_probability scenario_ga sample_population sample_problem half_samples
    zero_samples three_quarter_samples rfl (by decide) (by decide)
    (fun _ => (by decide! : (0 : ℚ) ≤ 1 / 2 ∧ (1 / 2 : ℚ) < 1))

/-- C14, as stated, fails: with `crossover_probability = 0`, a non-empty population and
probability samples in `[0,1)`, `crossover` does not return when the first chromosome has
no gene, because line 106 constructs `int_dist(0, population[0].size() - 1)` with the
bounds `(0, -1)` before any pair is looked at. -/
theorem crossover_with_zero_probability_needs_a_gene :
    scenario_ga._crossover_probability = 0 ∧
    geneless_population ≠ [] ∧
    (∀ i, 0 ≤ half_samples i ∧ half_samples i < 1) ∧
    scenario_ga.crossover geneless_population half_samples zero_samples = none :=
  ⟨rfl, by decide, fun _ => (by decide! : (0 : ℚ) ≤ 1 / 2 ∧ (1 / 2 : ℚ) < 1), rfl⟩

/-- C14, amended: with `crossover_probability = 0`, for every non-empty population whose
first chromosome has at least one gene and probability samples in `[0,1)`, `crossover`
returns a population equal to its input; and `evy::Crossover::operator()` with a
probability policy that returns `0` and a generator whose samples are `≥ 0` leaves the
container and the state of the strategy unchanged and gives the same result for every
strategy: the strategy is never invoked. -/
theorem crossover_with_zero_probability {C S P : Type} [Preorder P] [Zero P]
    [DecidableRel (fun a b : P => a < b)] (crossoverProbability : Nat → P)
    (crossoverStrategy : S → C → C → C × C × S) (generator : Nat → P)
    (chromosomes : List C) (g p : Nat) (s : S) (ga : GeneticAlgorithm)
    (population : List (List ℚ)) (probability : Nat → ℚ) (point : Nat → Nat)
    (hcp : ga._crossover_probability = 0) (hne : population ≠ [])
    (hgenes : ∀ first, population.head? = some first → 1 ≤ first.length)
    (hprobability : ∀ i, 0 ≤ probability i ∧ probability i < 1)
    (hpolicy : ∀ n, crossoverProbability n = 0) (hgenerator : ∀ n, 0 ≤ generator n) :
    ga.crossover population probability point = some population ∧
    (evy.Crossover crossoverProbability crossoverStrategy generator chromosomes g p
      s).chromosomes = chromosomes ∧
    (evy.Crossover crossoverProbability crossoverStrategy generator chromosomes g p
      s).strategy_state = s ∧
    ∀ other : S → C → C → C × C × S,
      evy.Crossover crossoverProbability other generator chromosomes g p s =
        evy.Crossover crossoverProbability crossoverStrategy generator chromosomes g p
          s := by
  have hskip : ∀ i, ¬ probability i < ga._crossover_probability :=
    fun i => by rw [hcp]; exact not_lt.mpr (hprobability i).1
  have hskip' : ∀ n m, ¬ generator n < crossoverProbability m :=
    fun n m => by rw [hpolicy m]; exact not_lt_of_le (hgenerator n)
  refine ⟨?_, ?_, ?_, ?_⟩
  · cases population with
    | nil => exact absurd rfl hne
    | cons first rest =>
      rw [crossover_eq_loop ga first rest probability point (hgenes first rfl),
        crossover_loop_skipped _ _ _ hskip]
  · rw [evy.Crossover_skipped crossoverProbability crossoverStrategy generator hskip']
  · rw [evy.Crossover_skipped crossoverProbability crossoverStrategy generator hskip']
  · intro other
    rw [evy.Crossover_skipped crossoverProbability crossoverStrategy generator hskip',
      evy.Crossover_skipped crossoverProbability other generator hskip']

/-- Both operators with probability `0` on three chromosomes of three genes. -/
theorem crossover_with_zero_probability_witness :
    scenario_ga.crossover sample_population half_samples unit_samples =
      some sample_population ∧
    (evy.Crossover zero_policy exchange_strategy counting_generator sample_population 0 0
      0).chromosomes = sample_population ∧
    (evy.Crossover zero_policy exchange_strategy counting_generator sample_population 0 0
      0).strategy_state = 0 :=
  ⟨(crossover_with_zero_probability zero_policy exchange_strategy counting_generator
      sample_population 0 0 0 scenario_ga sample_population half_samples unit_samples rfl
      (by decide) (by decide) (fun _ => (by decide! : (0 : ℚ) ≤ 1 / 2 ∧ (1 / 2 : ℚ) < 1))
      (fun _ => rfl) (fun n => Nat.cast_nonneg n)).1,
    (crossover_with_zero_probability zero_policy exchange_strategy counting_generator
      sample_population 0 0 0 scenario_ga sample_population half_samples unit_samples rfl
      (by decide) (by decide) (fun _ => (by decide! : (0 : ℚ) ≤ 1 / 2 ∧ (1 / 2 : ℚ) < 1))
      (fun _ => rfl) (fun n => Nat.cast_nonneg n)).2.1,
    by decide!⟩

/-- The accesses of one parent slot: the sample lies inside the shuffled vector, is not
empty and holds valid positions of the score table; the selected scores exist and have a
greatest element; the winner is a valid position of the current population. -/
theorem select_parent_accesses (ga : GeneticAlgorithm) (shuffle : List Nat → List Nat)
    (hpop : ga._current_population.length = ga._pop_number)
    (hscores : ga._scores.length = ga._pop_number)
    (hk0 : 0 ≤ ga._k_tournament_selection)
    (hk : ga._k_tournament_selection + 1 ≤ (ga._pop_number : Int))
    (hperm : (shuffle (List.range ga._pop_number)).Perm (List.range ga._pop_number)) :
    ga._k_tournament_selection + 1 ≤ ((shuffle (List.range ga._pop_number)).length : Int) ∧
    ∃ (run_indices : List Nat) (selected_scores : List ℚ) (winner : Nat)
        (chromosome : List ℚ),
      ga._pick_random_chromosome ga._k_tournament_selection shuffle = some run_indices ∧
      run_indices ≠ [] ∧
      (∀ x ∈ run_indices, x < ga._scores.length) ∧
      run_indices.mapM (fun index => ga._scores[index]?) = some selected_scores ∧
      selected_scores.length = run_indices.length ∧
      max_element selected_scores < selected_scores.length ∧
      run_indices[max_element selected_scores]? = some winner ∧
      ga._tournament_selection run_indices = some winner ∧
      winner < ga._current_population.length ∧
      ga._current_population[winner]? = some chromosome ∧
      ga.select_parent shuffle = some chromosome := by
  obtain ⟨run_indices, hrun, _, hlen, _, hin⟩ :=
    pick_random_chromosome_spec ga _ shuffle hk0 hk hperm
  have hne : run_indices ≠ [] := by
    intro h
    rw [h] at hlen
    simp only [List.length_nil, Nat.cast_zero] at hlen
    omega
  have hvalid : ∀ x ∈ run_indices, x < ga._scores.length :=
    fun x hx => by rw [hscores]; exact hin x hx
  obtain ⟨selected_scores, hsel⟩ :=
    mapM_option_defined (fun index => ga._scores[index]?) run_indices
      (fun x hx => getElem?_defined (hvalid x hx))
  have hrel := (mapM_option_iff _ _ _).mp hsel
  have hsne : selected_scores ≠ [] := by
    intro h
    rw [h] at hrel
    cases hrel
    exact hne rfl
  obtain ⟨best, hbest, _, _⟩ := max_element_spec selected_scores hsne
  obtain ⟨winner, hwin, _⟩ := forall₂_getElem?_right hrel _ _ hbest
  have hw : winner < ga._pop_number := hin winner (List.getElem?_mem hwin)
  obtain ⟨chromosome, hch⟩ :=
    getElem?_defined (l := ga._current_population) (i := winner) (by rw [hpop]; exact hw)
  have htour : ga._tournament_selection run_indices = some winner := by
    unfold _tournament_selection
    rw [hsel]
    exact hwin
  refine ⟨?_, run_indices, selected_scores, winner, chromosome, hrun, hne, hvalid, hsel,
    hrel.length_eq.symm, lt_length_of_getElem? hbest, hwin, htour, by rw [hpop]; exact hw,
    hch, ?_⟩
  · rw [hperm.length_eq, List.length_range]
    exact hk
  · unfold select_parent
    rw [hrun]
    simp only [htour]
    exact hch

/-- C16: under `0 ≤ k_tournament` and `k_tournament + 1 ≤ pop_number`, with the current
population and the score table both of size `pop_number`, `select_parents` returns for
every outcome of the shuffles, and in every parent slot every index access is in range:
the first `k_tournament + 1` entries lie inside the shuffled index list, the tournament
list is not empty, every sampled index is a valid position of the score table, the
selected scores have a greatest element, whose position is a position of the tournament
list, and the winning index is a valid position of the current population. -/
theorem select_parents_accesses_in_range (ga : GeneticAlgorithm)
    (shuffle : Nat → List Nat → List Nat)
    (hk0 : 0 ≤ ga._k_tournament_selection)
    (hk : ga._k_tournament_selection + 1 ≤ (ga._pop_number : Int))
    (hpop : ga._current_population.length = ga._pop_number)
    (hscores : ga._scores.length = ga._pop_number)
    (hperm : ∀ i, i < ga._pop_number →
      (shuffle i (List.range ga._pop_number)).Perm (List.range ga._pop_number)) :
    (∃ parents, ga.select_parents shuffle = some parents ∧
      parents.length = ga._pop_number) ∧
    ∀ i, i < ga._pop_number →
      ga._k_tournament_selection + 1 ≤
        ((shuffle i (List.range ga._pop_number)).length : Int) ∧
      ∃ (run_indices : List Nat) (selected_scores : List ℚ) (winner : Nat)
          (chromosome : List ℚ),
        ga._pick_random_chromosome ga._k_tournament_selection (shuffle i) =
          some run_indices ∧
        run_indices ≠ [] ∧
        (∀ x ∈ run_indices, x < ga._scores.length) ∧
        run_indices.mapM (fun index => ga._scores[index]?) = some selected_scores ∧
        selected_scores.length = run_indices.length ∧
        max_element selected_scores < selected_scores.length ∧
        run_indices[max_element selected_scores]? = some winner ∧
        ga._tournament_selection run_indices = some winner ∧
        winner < ga._current_population.length ∧
        ga._current_population[winner]? = some chromosome ∧
        ga.select_parent (shuffle i) = some chromosome := by
  obtain ⟨parents, hparents, hlen, _, _⟩ :=
    select_parents_spec ga shuffle hpop hscores hk0 hk hperm
  exact ⟨⟨parents, hparents, hlen⟩,
    fun i hi => select_parent_accesses ga (shuffle i) hpop hscores hk0 hk (hperm i hi)⟩

/-- Parent selection on the evaluated scenario population: every access is in range. -/
theorem select_parents_accesses_in_range_witness :
    (∃ parents, scenario_evaluated.select_parents scenario_generation.shuffle =
        some parents ∧
      parents.length = scenario_evaluated._pop_number) ∧
    scenario_evaluated._pick_random_chromosome 1 (scenario_generation.shuffle 3) =
      some [0, 2] ∧
    scenario_evaluated._tournament_selection [0, 2] = some 0 :=
  ⟨(select_parents_accesses_in_range scenario_evaluated scenario_generation.shuffle
      (by decide) (by decide) (by decide) (by decide) scenario_shuffle_perm).1,
    by decide!, by decide!⟩

/-- A list of at least two pairwise distinct entries holds an entry different from any
given value. -/
theorem exists_ne_of_nodup {α : Type} (l : List α) (w : α) (hnodup : l.Nodup)
    (hlen : 2 ≤ l.length) : ∃ x ∈ l, x ≠ w := by
  match l, hnodup, hlen with
  | [], _, h => simp at h
  | [_], _, h => simp at h
  | a :: b :: rest, hnodup, _ =>
    by_cases ha : a = w
    · refine ⟨b, by simp, ?_⟩
      intro hb
      have hab : a ≠ b := by
        intro h
        rw [h] at hnodup
        simp at hnodup
      exact hab (by rw [ha, hb])
    · exact ⟨a, by simp, ha⟩

/-- With at least two competitors a tournament is not won by an index whose score is
strictly smaller than every other score. -/
theorem select_parent_avoids_worst (ga : GeneticAlgorithm) (shuffle : List Nat → List Nat)
    (w : Nat) (hk1 : 1 ≤ ga._k_tournament_selection)
    (hk : ga._k_tournament_selection + 1 ≤ (ga._pop_number : Int))
    (hscores : ga._scores.length = ga._pop_number)
    (hworst : ∀ (x : Nat) (s sw : ℚ), x ≠ w → ga._scores[x]? = some s →
      ga._scores[w]? = some sw → sw < s)
    (hperm : (shuffle (List.range ga._pop_number)).Perm (List.range ga._pop_number)) :
    ∃ (run_indices : List Nat) (winner : Nat),
      ga._pick_random_chromosome ga._k_tournament_selection shuffle = some run_indices ∧
      ga._tournament_selection run_indices = some winner ∧
      winner ∈ run_indices ∧ winner < ga._pop_number ∧ winner ≠ w := by
  obtain ⟨run_indices, hrun, _, hlen, hnodup, hin⟩ :=
    pick_random_chromosome_spec ga _ shuffle (by omega) hk hperm
  have hne : run_indices ≠ [] := by
    intro h
    rw [h] at hlen
    simp only [List.length_nil, Nat.cast_zero] at hlen
    omega
  obtain ⟨_, winner, best, hwin, _, hmem, _, hbest, hle, _⟩ :=
    tournament_selection_spec ga run_indices hne
      (fun x hx => by rw [hscores]; exact hin x hx)
  refine ⟨run_indices, winner, hrun, hwin, hmem, hin winner hmem, ?_⟩
  intro hw
  obtain ⟨x, hx, hxw⟩ := exists_ne_of_nodup run_indices w hnodup (by omega)
  obtain ⟨s, hs⟩ := getElem?_defined (l := ga._scores) (i := x)
    (by rw [hscores]; exact hin x hx)
  rw [hw] at hbest
  have h1 := hworst x s best hxw hs hbest
  have h2 := hle x hx s hs
  exact absurd h1 (not_lt.mpr h2)

/-- In the evaluated scenario population the score at index 2 is strictly smaller than
every other score. -/
theorem scenario_worst_is_two :
    ∀ (x : Nat) (s sw : ℚ), x ≠ 2 → scenario_evaluated._scores[x]? = some s →
      scenario_evaluated._scores[2]? = some sw → sw < s := by
  intro x s sw hx hs hsw
  have hlt : x < 4 := lt_length_of_getElem? hs
  have hsw' : sw = -(81 / 100) := by
    have h : scenario_evaluated._scores[2]? = some (-(81 / 100) : ℚ) := by decide!
    rw [h] at hsw
    exact (Option.some.inj hsw).symm
  subst hsw'
  interval_cases x
  · have h : scenario_evaluated._scores[0]? = some (-(1 / 4) : ℚ) := by decide!
    rw [h] at hs
    rw [← Option.some.inj hs]
    decide!
  · have h : scenario_evaluated._scores[1]? = some (-(1 / 100) : ℚ) := by decide!
    rw [h] at hs
    rw [← Option.some.inj hs]
    decide!
  · exact absurd rfl hx
  · have h : scenario_evaluated._scores[3]? = some (-(1 / 400) : ℚ) := by decide!
    rw [h] at hs
    rw [← Option.some.inj hs]
    decide!

/-- C18: if `k_tournament ≥ 1`, `k_tournament + 1 ≤ pop_number` and the score of index
`w` is strictly smaller than the score of every other index, then for every outcome of
the shuffles the winner of the tournament of every parent slot is an index different
from `w`, and `select_parents` fills every slot with the current chromosome at such an
index: no slot is filled from index `w`. -/
theorem select_parents_never_picks_worst (ga : GeneticAlgorithm)
    (shuffle : Nat → List Nat → List Nat) (w : Nat)
    (hk1 : 1 ≤ ga._k_tournament_selection)
    (hk : ga._k_tournament_selection + 1 ≤ (ga._pop_number : Int))
    (hpop : ga._current_population.length = ga._pop_number)
    (hscores : ga._scores.length = ga._pop_number)
    (hworst : ∀ (x : Nat) (s sw : ℚ), x ≠ w → ga._scores[x]? = some s →
      ga._scores[w]? = some sw → sw < s)
    (hperm : ∀ i, i < ga._pop_number →
      (shuffle i (List.range ga._pop_number)).Perm (List.range ga._pop_number)) :
    ∃ parents, ga.select_parents shuffle = some parents ∧
      parents.length = ga._pop_number ∧
      ∀ i, i < ga._pop_number →
        ∃ (run_indices : List Nat) (winner : Nat) (chromosome : List ℚ),
          ga._pick_random_chromosome ga._k_tournament_selection (shuffle i) =
            some run_indices ∧
          ga._tournament_selection run_indices = some winner ∧
          winner ≠ w ∧
          ga._current_population[winner]? = some chromosome ∧
          parents[i]? = some chromosome := by
  obtain ⟨parents, hparents, hlen, hslots, _⟩ :=
    select_parents_spec ga shuffle hpop hscores (by omega) hk hperm
  refine ⟨parents, hparents, hlen, ?_⟩
  intro i hi
  obtain ⟨run_indices, winner, chromosome, hrun, hwin, _, hch, hparent⟩ := hslots i hi
  obtain ⟨run_indices', winner', hrun', hwin', _, _, hne⟩ :=
    select_parent_avoids_worst ga (shuffle i) w hk1 hk hscores hworst (hperm i hi)
  rw [hrun] at hrun'
  have he := Option.some.inj hrun'
  subst he
  rw [hwin] at hwin'
  have he' := Option.some.inj hwin'
  subst he'
  exact ⟨run_indices, winner, chromosome, hrun, hwin, hne, hch, hparent⟩

/-- Parent selection on the evaluated scenario population, whose unique worst chromosome
is at index 2: with the scenario shuffles no slot is filled from it. -/
theorem select_parents_never_picks_worst_witness :
    (∃ parents, scenario_evaluated.select_parents scenario_generation.shuffle =
        some parents ∧
      parents.length = scenario_evaluated._pop_number) ∧
    scenario_evaluated.select_parents scenario_generation.shuffle =
      some [[-(1 / 10)], [1 / 20], [1 / 20], [1 / 2]] ∧
    scenario_evaluated._current_population[2]? = some [9 / 10] :=
  ⟨(select_parents_never_picks_worst scenario_evaluated scenario_generation.shuffle 2
      (by decide) (by decide) (by decide) (by decide) scenario_worst_is_two
      scenario_shuffle_perm).imp (fun _ h => ⟨h.1, h.2.1⟩),
    by decide!, by decide!⟩

/-- The loop of `crossover` permutes the genes found at a position. -/
theorem crossover_loop_genes_perm (cp : ℚ) (probability : Nat → ℚ) (point : Nat → Nat)
    (g : Nat) :
    ∀ (population out : List (List ℚ)) (i j i' j' : Nat),
      crossover_loop cp probability point population i j = some (out, i', j') →
      (out.map (fun chromosome => chromosome[g]?)).Perm
        (population.map (fun chromosome => chromosome[g]?))
  | [], out, i, j, i', j', h => by
    rw [crossover_loop_nil] at h
    simp only [Option.some.injEq, Prod.mk.injEq] at h
    rw [← h.1]
  | [last], out, i, j, i', j', h => by
    rw [crossover_loop_single] at h
    simp only [Option.some.injEq, Prod.mk.injEq] at h
    rw [← h.1]
  | first :: second :: rest, out, i, j, i', j', h => by
    rw [crossover_loop_pair] at h
    by_cases hfire : probability i < cp
    · rw [if_pos hfire] at h
      cases hswap : swap_ranges (point j + 1) first second with
      | none => rw [hswap] at h; simp at h
      | some r =>
        obtain ⟨first', second'⟩ := r
        rw [hswap] at h
        cases hrec : crossover_loop cp probability point rest (i + 1) (j + 1) with
        | none => rw [hrec] at h; simp at h
        | some r =>
          obtain ⟨out', i'', j''⟩ := r
          rw [hrec] at h
          simp only [Option.some.injEq, Prod.mk.injEq] at h
          obtain ⟨h1, _, _⟩ := h
          subst h1
          have ih := crossover_loop_genes_perm cp probability point g rest out' (i + 1)
            (j + 1) _ _ hrec
          obtain ⟨_, _, _, _, hg⟩ := swap_ranges_spec _ _ _ _ _ hswap
          simp only [List.map_cons, (hg g).1, (hg g).2]
          by_cases hlt : g < point j + 1
          · rw [if_pos hlt, if_pos hlt]
            exact (List.Perm.swap _ _ _).trans ((ih.cons _).cons _)
          · rw [if_neg hlt, if_neg hlt]
            exact (ih.cons _).cons _
    · rw [if_neg hfire] at h
      cases hrec : crossover_loop cp probability point rest (i + 1) j with
      | none => rw [hrec] at h; simp at h
      | some r =>
        obtain ⟨out', i'', j''⟩ := r
        rw [hrec] at h
        simp only [Option.some.injEq, Prod.mk.injEq] at h
        obtain ⟨h1, _, _⟩ := h
        subst h1
        have ih := crossover_loop_genes_perm cp probability point g rest out' (i + 1) j _ _
          hrec
        simp only [List.map_cons]
        exact (ih.cons _).cons _

/-- C19: on a non-empty population of chromosomes of equal length `n ≥ 1`, for every
`crossover_probability` and every outcome of the draws (crossover points in
`[0, n - 1]`), `crossover` returns a population of the same size in which, for every
pair `(2i, 2i+1)` and every gene position `j`, the two output genes at `j` are the two
input genes at `j` of that pair, in the same order or exchanged; an unpaired last
chromosome is unchanged; hence for every position `j` the multiset of the genes at `j`
over the whole population is unchanged. -/
theorem crossover_keeps_genes_in_place (ga : GeneticAlgorithm)
    (population : List (List ℚ)) (probability : Nat → ℚ) (point : Nat → Nat) (n : Nat)
    (hn : 1 ≤ n) (hne : population ≠ [])
    (hlen : ∀ chromosome ∈ population, chromosome.length = n)
    (hpoint : ∀ j, point j ≤ n - 1) :
    ∃ out, ga.crossover population probability point = some out ∧
      out.length = population.length ∧
      (∀ chromosome ∈ out, chromosome.length = n) ∧
      (∀ i j, 2 * i + 1 < population.length →
        (gene out (2 * i) j = gene population (2 * i) j ∧
          gene out (2 * i + 1) j = gene population (2 * i + 1) j) ∨
        (gene out (2 * i) j = gene population (2 * i + 1) j ∧
          gene out (2 * i + 1) j = gene population (2 * i) j)) ∧
      (∀ m, 2 * (population.length / 2) ≤ m → out[m]? = population[m]?) ∧
      ∀ j, (genes_at out j : Multiset ℚ) = (genes_at population j : Multiset ℚ) := by
  obtain ⟨out, hout, hloop, hlength, hlens, hpairs, hrest⟩ :=
    crossover_spec ga population probability point n hne hlen
      (fun j => by have := hpoint j; omega)
  refine ⟨out, hout, hlength, hlens, ?_, hrest, ?_⟩
  · intro i j hi
    have h := hpairs i hi j
    by_cases hcond : probability i < ga._crossover_probability ∧
        j ≤ point (fired_count ga._crossover_probability probability 0 i)
    · rw [if_pos hcond, if_pos hcond] at h
      exact Or.inr h
    · rw [if_neg hcond, if_neg hcond] at h
      exact Or.inl h
  · intro j
    have hperm := crossover_loop_genes_perm ga._crossover_probability probability point j
      population out 0 0 _ _ hloop
    have hfilter := hperm.filterMap id
    rw [List.filterMap_map, List.filterMap_map] at hfilter
    exact Multiset.coe_eq_coe.mpr hfilter

/-- Crossover with probability `1` and crossover point `1` on three chromosomes of three
genes: the genes at position 0 are `1, 4, 7` before and `4, 1, 7` after. -/
theorem crossover_keeps_genes_in_place_witness :
    (∃ out, always_ga.crossover sample_population half_samples unit_samples = some out ∧
      out.length = sample_population.length ∧
      (genes_at out 0 : Multiset ℚ) = (genes_at sample_population 0 : Multiset ℚ)) ∧
    (always_ga.crossover sample_population half_samples unit_samples).map
      (fun out => genes_at out 0) = some [4, 1, 7] ∧
    genes_at sample_population 0 = [1, 4, 7] :=
  ⟨(crossover_keeps_genes_in_place always_ga sample_population half_samples unit_samples 3
      (by decide) (by decide) (by decide) (fun _ => (by decide : (1 : Nat) ≤ 3 - 1))).imp
    (fun _ h => ⟨h.1, h.2.1, h.2.2.2.2.2 0⟩),
    by decide!, by decide!⟩

/-- Inside both vectors `std::swap_ranges` exchanges the leading parts. -/
theorem swap_ranges_eq_take_drop :
    ∀ (n : Nat) (first second : List ℚ), n ≤ first.length → n ≤ second.length →
      swap_ranges n first second =
        some (second.take n ++ first.drop n, first.take n ++ second.drop n)
  | 0, first, second, _, _ => by simp [swap_ranges]
  | n + 1, [], _, h, _ => by simp at h
  | n + 1, _ :: _, [], _, h => by simp at h
  | n + 1, a :: first, b :: second, h1, h2 => by
    rw [swap_ranges, swap_ranges_eq_take_drop n first second (by simpa using h1)
      (by simpa using h2)]
    simp

/-- The loop of `crossover` computes what the generic operator computes with the constant
policy and the single-point strategy, sample by sample. -/
theorem crossover_loop_eq_Crossover (cp : ℚ) (probability : Nat → ℚ) (point : Nat → Nat)
    (n : Nat) (hpoint : ∀ j, point j < n) :
    ∀ (population : List (List ℚ)) (i p j : Nat),
      (∀ chromosome ∈ population, chromosome.length = n) →
      crossover_loop cp probability point population i j =
        some ((evy.Crossover (constant_policy cp) (single_point_strategy point) probability
            population i p j).chromosomes,
          (evy.Crossover (constant_policy cp) (single_point_strategy point) probability
            population i p j).generator_calls,
          (evy.Crossover (constant_policy cp) (single_point_strategy point) probability
            population i p j).strategy_state)
  | [], i, p, j, _ => by rw [crossover_loop_nil, evy.Crossover_nil]
  | [last], i, p, j, _ => by rw [crossover_loop_single, evy.Crossover_single]
  | first :: second :: rest, i, p, j, hlen => by
    have h1 : first.length = n := hlen first (by simp)
    have h2 : second.length = n := hlen second (by simp)
    have hrest : ∀ chromosome ∈ rest, chromosome.length = n :=
      fun c hc => hlen c (by simp [hc])
    rw [crossover_loop_pair]
    by_cases hfire : probability i < cp
    · have hfire' : probability i < constant_policy cp p := hfire
      rw [if_pos hfire, evy.Crossover_pair_fired _ _ _ _ _ _ _ _ _ hfire',
        swap_ranges_eq_take_drop (point j + 1) first second
          (by rw [h1]; exact hpoint j) (by rw [h2]; exact hpoint j)]
      simp only
      rw [crossover_loop_eq_Crossover cp probability point n hpoint rest (i + 1) (p + 1)
        (j + 1) hrest]
      rfl
    · have hfire' : ¬ probability i < constant_policy cp p := hfire
      rw [if_neg hfire, evy.Crossover_pair_skipped _ _ _ _ _ _ _ _ _ hfire',
        crossover_loop_eq_Crossover cp probability point n hpoint rest (i + 1) (p + 1) j
          hrest]

/-- C20: on a non-empty population of chromosomes of equal length `n ≥ 1`, for every
sequence of per-pair probability samples and every sequence of crossover points in
`[0, n - 1]`, `GeneticAlgorithm::crossover` returns the container that
`evy::Crossover::operator()` leaves when it is instantiated with the constant probability
policy returning `crossover_probability`, the single-point strategy and the same samples;
the two operators also draw the same number of probability samples and of crossover
points. -/
theorem crossover_refines_generic_operator (ga : GeneticAlgorithm)
    (population : List (List ℚ)) (probability : Nat → ℚ) (point : Nat → Nat) (n : Nat)
    (hn : 1 ≤ n) (hne : population ≠ [])
    (hlen : ∀ chromosome ∈ population, chromosome.length = n)
    (hpoint : ∀ j, point j ≤ n - 1) :
    ga.crossover population probability point =
      some (evy.Crossover (constant_policy ga._crossover_probability)
        (single_point_strategy point) probability population 0 0 0).chromosomes ∧
    crossover_loop ga._crossover_probability probability point population 0 0 =
      some ((evy.Crossover (constant_policy ga._crossover_probability)
          (single_point_strategy point) probability population 0 0 0).chromosomes,
        (evy.Crossover (constant_policy ga._crossover_probability)
          (single_point_strategy point) probability population 0 0 0).generator_calls,
        (evy.Crossover (constant_policy ga._crossover_probability)
          (single_point_strategy point) probability population 0 0 0).strategy_state) := by
  have hloop := crossover_loop_eq_Crossover ga._crossover_probability probability point n
    (fun j => by have := hpoint j; omega) population 0 0 0 hlen
  refine ⟨?_, hloop⟩
  cases population with
  | nil => exact absurd rfl hne
  | cons first rest =>
    have hfirst : 1 ≤ first.length := by
      rw [hlen first (by simp)]
      exact hn
    rw [crossover_eq_loop ga first rest probability point hfirst, hloop]

/-- Both operators with probability `0.25` on three chromosomes of three genes, the
probability samples `0, 1, 2` and the crossover point `1`. -/
theorem crossover_refines_generic_operator_witness :
    quarter_ga.crossover sample_population counting_generator unit_samples =
      some (evy.Crossover (constant_policy quarter_ga._crossover_probability)
        (single_point_strategy unit_samples) counting_generator sample_population 0 0
        0).chromosomes ∧
    quarter_ga.crossover sample_population counting_generator unit_samples =
      some [[4, 5, 3], [1, 2, 6], [7, 8, 9]] :=
  ⟨(crossover_refines_generic_operator quarter_ga sample_population counting_generator
      unit_samples 3 (by decide) (by decide) (by decide)
      (fun _ => (by decide : (1 : Nat) ≤ 3 - 1))).1,
    by decide!⟩

end GeneticAlgorithm

end EvoAlgos
